import Mathlib

/-!
# h-util `bigint.h`: signed-digit decimal big integers

A shallow embedding of `bi_load`, `bi_add`, `bi_sub` and `debug_print` from
`src/bigint.h`, and theorems about them.

* A digit cell is a C `signed char`; it is modelled by its integer value, and
  every store of an `int` expression into a cell goes through `wrap8`.
* `dlist.h` is not part of the sources at hand; the container operations that
  `bigint.h` calls are modelled from the container contract of the
  specification (section 4.1).
* Indexed reads and writes return `none` outside `0 .. used-1`; the two
  `while` loops of the carry pass take a fuel argument and return `none` when
  it runs out.
* `bi_add_with` is `bi_add` with the store into a cell as a parameter, for the
  comparison of cell widths; `bi_add_h` and `bi_sub_h` are `bi_add` and
  `bi_sub` on a heap of digit sequences, for what a call leaves unchanged.
-/

namespace BigInt

/-! ## Digit cells -/

/-- Conversion of an `int` value to `signed char` (two's complement, 8 bits). -/
def wrap8 (x : Int) : Int := (x + 128) % 256 - 128

/-! ## The digit sequence (`dlist.h`) -/

/-- Modelled from the spec: `dlist_t` of `dlist.h`, which is absent from the
sources: "a dynamic ordered sequence of single-byte signed values".  The list
holds the cells `get[0] .. get[used-1]`. -/
abbrev dlist_t := List Int

/-- Modelled from the spec: the `used` field of `dlist_t` (absent `dlist.h`),
the "length query" of the container. -/
def dlist_used (d : dlist_t) : Int := (d.length : Int)

/-- Modelled from the spec: `dl_init` of the absent `dlist.h`; the sequence
starts with no element. -/
def dl_init : dlist_t := []

/-- Modelled from the spec: `dl_clear` of the absent `dlist.h`; discards every
element. -/
def dl_clear (_d : dlist_t) : dlist_t := []

/-- Modelled from the spec: `dl_add` of the absent `dlist.h`, "append(value)":
the value becomes the new last element. -/
def dl_add (d : dlist_t) (v : Int) : dlist_t := d ++ [v]

/-- Modelled from the spec: `dl_ins` of the absent `dlist.h`,
"insertAt(value, index) (shifts tail right)". -/
def dl_ins (d : dlist_t) (v : Int) (i : Nat) : dlist_t := d.take i ++ v :: d.drop i

/-- Modelled from the spec: `dl_rem` of the absent `dlist.h`,
"removeAt(index) (shifts tail left)". -/
def dl_rem (d : dlist_t) (i : Nat) : dlist_t := d.take i ++ d.drop (i + 1)

/-- Modelled from the spec: a read of `*(signed char *)d->get[i]` ("elementAt",
absent `dlist.h`); `none` when `i` is not an index of the sequence. -/
def dl_get (d : dlist_t) (i : Int) : Option Int :=
  if i < 0 then none else d[i.toNat]?

/-- Modelled from the spec: a write `*(signed char *)d->get[i] = v`
("elementAt (mutable access)", absent `dlist.h`); `none` when `i` is not an
index of the sequence. -/
def dl_put (d : dlist_t) (i : Int) (v : Int) : Option dlist_t :=
  if i < 0 then none
  else if i.toNat < d.length then some (d.set i.toNat v) else none

/-! ## `bigint_t` -/

/-- The `bigint_t` struct: one digit sequence, least-significant digit first. -/
structure bigint_t where
  data : dlist_t
deriving DecidableEq, Repr

/-- The function `bi_init`: attaches an empty digit sequence. -/
def bi_init : bigint_t := ⟨dl_init⟩

/-! ## `bi_load` -/

/-- The `while (i < len)` loop of `bi_load` (lines 54-58) over the characters
`val[i] .. val[len-1]` that are left.  Each digit is inserted at position 0. -/
def bi_load_loop (sign : Int) : List Char → dlist_t → dlist_t
  | [], d => d
  | c :: rest, d =>
      bi_load_loop sign rest (dl_ins d (wrap8 (((c.toNat : Int) - ('0'.toNat : Int)) * sign)) 0)

/-- The function `bi_load` (lines 37-59).  `val` is the C string without its
terminating NUL; `val[0]` of the empty string is that NUL, which is neither
sign character. -/
def bi_load (b : bigint_t) (val : List Char) : bigint_t :=
  let d := dl_clear b.data
  let i : Nat := if val.head? = some '+' ∨ val.head? = some '-' then 1 else 0
  let sign : Int := if val.head? = some '-' then -1 else 1
  ⟨bi_load_loop sign (val.drop i) d⟩

/-! ## `bi_add` -/

/-- The copy loop of `bi_add` (lines 74-77): `k` iterations are left, the
next one reads `l->data->get[i]` and appends it to `res`. -/
def bi_add_copy (l : dlist_t) : Nat → Nat → dlist_t → Option dlist_t
  | 0, _, res => some res
  | k + 1, i, res => do
      let v ← dl_get l i
      bi_add_copy l k (i + 1) (dl_add res v)

/-- The accumulation loop of `bi_add` (lines 81-84):
`res[i] += s[i]` for the `k` positions from `i` on. -/
def bi_add_accum (s : dlist_t) : Nat → Nat → dlist_t → Option dlist_t
  | 0, _, res => some res
  | k + 1, i, res => do
      let r ← dl_get res i
      let v ← dl_get s i
      let res1 ← dl_put res i (wrap8 (r + v))
      bi_add_accum s k (i + 1) res1

/-- The first inner loop of the carry pass (lines 89-93):
`while (res[i] > 9) { res[i] -= 10; res[i+1] += 1; }`.
Every test of the loop condition costs one unit of fuel. -/
def carry_up : Nat → dlist_t → Nat → Option dlist_t
  | 0, _, _ => none
  | fuel + 1, res, i => do
      let d ← dl_get res i
      if d > 9 then
        let res1 ← dl_put res i (wrap8 (d - 10))
        let n ← dl_get res1 (i + 1)
        let res2 ← dl_put res1 (i + 1) (wrap8 (n + 1))
        carry_up fuel res2 i
      else
        some res

/-- The second inner loop of the carry pass (lines 95-99):
`while (res[i] < -9) { res[i] += 10; res[i+1] -= 1; }`. -/
def carry_down : Nat → dlist_t → Nat → Option dlist_t
  | 0, _, _ => none
  | fuel + 1, res, i => do
      let d ← dl_get res i
      if d < -9 then
        let res1 ← dl_put res i (wrap8 (d + 10))
        let n ← dl_get res1 (i + 1)
        let res2 ← dl_put res1 (i + 1) (wrap8 (n - 1))
        carry_down fuel res2 i
      else
        some res

/-- The carry pass of `bi_add` (lines 87-100): `k` positions are left,
starting at `i`; the length of `res` does not change in the loop, so
`i < res->data->used - 1` holds exactly for the first `used - 1` positions. -/
def bi_add_carry (fuel : Nat) : Nat → Nat → dlist_t → Option dlist_t
  | 0, _, res => some res
  | k + 1, i, res => do
      let res1 ← carry_up fuel res i
      let res2 ← carry_down fuel res1 i
      bi_add_carry fuel k (i + 1) res2

/-- The function `bi_add` (lines 61-109).  `fuel` bounds the number of
condition tests of each `while` loop. -/
def bi_add (fuel : Nat) (op_ op__ : bigint_t) : Option bigint_t := do
  let (l, s) := if dlist_used op_.data > dlist_used op__.data then (op_, op__) else (op__, op_)
  let res := bi_init.data
  let res ← bi_add_copy l.data l.data.length 0 res
  let res := dl_add res 0
  let res ← bi_add_accum s.data s.data.length 0 res
  let res ← bi_add_carry fuel (dlist_used res - 1).toNat 0 res
  let last ← dl_get res (dlist_used res - 1)
  if last = 0 then
    some ⟨dl_rem res (dlist_used res - 1).toNat⟩
  else
    some ⟨res⟩

/-! ## `bi_sub` -/

/-- The negation loop of `bi_sub` (lines 117-121): append `op__[i]` to `inv`,
then `inv[i] *= -1`. -/
def bi_sub_inv (op : dlist_t) : Nat → Nat → dlist_t → Option dlist_t
  | 0, _, inv => some inv
  | k + 1, i, inv => do
      let v ← dl_get op i
      let inv1 := dl_add inv v
      let w ← dl_get inv1 i
      let inv2 ← dl_put inv1 i (wrap8 (w * -1))
      bi_sub_inv op k (i + 1) inv2

/-- The function `bi_sub` (lines 111-128). -/
def bi_sub (fuel : Nat) (op_ op__ : bigint_t) : Option bigint_t := do
  let inv ← bi_sub_inv op__.data op__.data.length 0 bi_init.data
  bi_add fuel op_ ⟨inv⟩

/-! ## `debug_print` -/

/-- The print loop of `debug_print` (lines 137-141): `i` runs from `used`
down to 1 and prints `abs(b[i-1])` followed by a blank. -/
def debug_print_loop (d : dlist_t) : Nat → Option String
  | 0 => some ""
  | i + 1 => do
      let v ← dl_get d i
      let rest ← debug_print_loop d i
      some (toString v.natAbs ++ " " ++ rest)

/-- The function `debug_print` (lines 130-143): the text written to the
standard output. -/
def debug_print (b : bigint_t) : Option String := do
  let msd ← dl_get b.data (dlist_used b.data - 1)
  let sign := if msd < 0 then "- " else ""
  let body ← debug_print_loop b.data b.data.length
  some (sign ++ body ++ "\n")

/-! ## Represented value and canonical form -/

/-- The represented value, as the specification states it:
the sum over `i` of `digit[i] * 10^i`. -/
def value (b : bigint_t) : Int :=
  ((List.range b.data.length).map fun i => b.data.getD i 0 * 10 ^ i).sum

/-- Every digit lies in `[-9, 9]`. -/
def digits_ok (b : bigint_t) : Prop := ∀ d ∈ b.data, -9 ≤ d ∧ d ≤ 9

instance (b : bigint_t) : Decidable (digits_ok b) := by
  unfold digits_ok; infer_instance

/-- The digit-wise negation of an operand, as the specification words it:
every digit multiplied by -1, same length. -/
def negated (b : bigint_t) : bigint_t := ⟨b.data.map fun d => d * -1⟩

/-- All nonzero digits share one sign: every digit is `>= 0`, or every digit is
`<= 0`. -/
def uniform_sign (b : bigint_t) : Prop := (∀ d ∈ b.data, 0 ≤ d) ∨ (∀ d ∈ b.data, d ≤ 0)

instance (b : bigint_t) : Decidable (uniform_sign b) := by
  unfold uniform_sign; infer_instance

/-- No redundant most-significant zero: the single digit 0, or a
most-significant digit that is nonzero. -/
def no_redundant_zero (b : bigint_t) : Prop :=
  b.data = [0] ∨ (b.data ≠ [] ∧ b.data.getLast? ≠ some 0)

instance (b : bigint_t) : Decidable (no_redundant_zero b) := by
  unfold no_redundant_zero; infer_instance

/-- The canonical form of the specification: every digit in `[-9, 9]`, no
redundant most-significant zero, all nonzero digits of one sign. -/
def canonical (b : bigint_t) : Prop := digits_ok b ∧ no_redundant_zero b ∧ uniform_sign b

instance (b : bigint_t) : Decidable (canonical b) := by
  unfold canonical; infer_instance

/-- The decimal rendering in the format of `debug_print`, in the words of the
specification: the sign marker iff the number is negative, then the decimal
digits of its absolute value, most-significant first, each followed by a
blank, and a newline. -/
def spec_rendering (n : Int) : String :=
  (if n < 0 then "- " else "")
    ++ String.join ((Nat.toDigits 10 n.natAbs).map fun c => String.singleton c ++ " ") ++ "\n"

/-- A decimal digit character, `'0' .. '9'`. -/
def is_digit_char (c : Char) : Prop := '0'.toNat ≤ c.toNat ∧ c.toNat ≤ '9'.toNat

instance (c : Char) : Decidable (is_digit_char c) := by
  unfold is_digit_char; infer_instance

/-- The number a digit character stands for, `c - '0'`. -/
def digit_of (c : Char) : Int := (c.toNat : Int) - ('0'.toNat : Int)

/-- The integer a literal denotes: `sign` times the decimal reading of the
digit characters `cs`, most-significant first. -/
def literal_int (sign : Int) (cs : List Char) : Int :=
  sign * cs.foldl (fun acc c => 10 * acc + digit_of c) 0

/-- The sign a literal's optional sign prefix stands for. -/
def prefix_sign (pfx : List Char) : Int := if pfx = ['-'] then -1 else 1

/-- Horner form of the represented value. -/
def hval : List Int → Int
  | [] => 0
  | d :: t => d + 10 * hval t

/-- All cells of a list are at most `n` in magnitude. -/
def cells_le (n : Int) (l : List Int) : Prop := ∀ d ∈ l, -n ≤ d ∧ d ≤ n

/-- Cell-wise sum of the accumulation loop: the cells of `vs` are added into
the low positions of `rs`. -/
def add_into : List Int → List Int → List Int
  | r :: rs, v :: vs => wrap8 (r + v) :: add_into rs vs
  | rs, _ => rs

/-- One position of the carry pass on a cell `x` and its upper neighbour `y`,
for a cell that is at most one step out of range. -/
def carry_step (x y : Int) : Int × Int :=
  if x > 9 then (x - 10, y + 1) else if x < -9 then (x + 10, y - 1) else (x, y)

/-- The carry pass, position by position, on the current cell `x` and the
cells above it; the last cell is never a current position. -/
def ripple_from (x : Int) : List Int → List Int
  | [] => [x]
  | y :: t => (carry_step x y).1 :: ripple_from (carry_step x y).2 t

/-- The carry pass on a whole cell list. -/
def ripple : List Int → List Int
  | [] => []
  | x :: t => ripple_from x t

/-- The removal of the last cell when it is zero (lines 103-106). -/
def strip (r : List Int) : List Int :=
  if r.getLast? = some 0 then r.dropLast else r

/-- The cells `bi_add` returns for a longer operand `l` and a shorter `s`,
when no access fails and no loop runs out of fuel. -/
def add_lists (l s : List Int) : List Int := strip (ripple (add_into (l ++ [0]) s))

/-- Lines 73-108 of `bi_add`, after the longer operand `l` has been chosen. -/
def bi_add_body (fuel : Nat) (l s : dlist_t) : Option bigint_t := do
  let res ← bi_add_copy l l.length 0 bi_init.data
  let res := dl_add res 0
  let res ← bi_add_accum s s.length 0 res
  let res ← bi_add_carry fuel (dlist_used res - 1).toNat 0 res
  let last ← dl_get res (dlist_used res - 1)
  if last = 0 then
    some ⟨dl_rem res (dlist_used res - 1).toNat⟩
  else
    some ⟨res⟩

/-- Every cell holds a value of the cell type `signed char`. -/
def char_ok (b : bigint_t) : Prop := ∀ d ∈ b.data, -128 ≤ d ∧ d ≤ 127

instance (b : bigint_t) : Decidable (char_ok b) := by
  unfold char_ok; infer_instance

/-- Lines 86-108 of `bi_add`: the carry pass and the removal of a zero last
cell, on the cells `res` that the accumulation loop leaves. -/
def bi_add_tail (fuel : Nat) (res : dlist_t) : Option bigint_t := do
  let res ← bi_add_carry fuel (dlist_used res - 1).toNat 0 res
  let last ← dl_get res (dlist_used res - 1)
  if last = 0 then
    some ⟨dl_rem res (dlist_used res - 1).toNat⟩
  else
    some ⟨res⟩

/-- The text `debug_print` writes for one digit: `abs` of the cell in decimal,
then a blank (`printf("%d ", abs(..))`). -/
def digit_text (v : Int) : String := toString v.natAbs ++ " "

/-- Horner form of a little-endian list of natural digits. -/
def nval : List Nat → Nat
  | [] => 0
  | d :: t => d + 10 * nval t

/-! ## `bi_add` with the store into a cell as a parameter

The functions below are the loops of `bi_add` that store a computed `int` into
a cell, with that store as a parameter: `store x` is the value the cell holds
after `x` is stored, or `none` when the store is refused.  `store8` is the
`signed char` cell of the source. -/

/-- The store of the source: conversion to `signed char`. -/
def store8 (x : Int) : Option Int := some (wrap8 x)

/-- A cell of unbounded integers: every value is stored as it is. -/
def store_int (x : Int) : Option Int := some x

/-- A cell that refuses every value outside `[-19, 19]`. -/
def store_19 (x : Int) : Option Int := if -19 ≤ x ∧ x ≤ 19 then some x else none

/-- The accumulation loop (lines 81-84) with the store as a parameter. -/
def bi_add_accum_with (store : Int → Option Int) (s : dlist_t) :
    Nat → Nat → dlist_t → Option dlist_t
  | 0, _, res => some res
  | k + 1, i, res => do
      let r ← dl_get res i
      let v ← dl_get s i
      let w ← store (r + v)
      let res1 ← dl_put res i w
      bi_add_accum_with store s k (i + 1) res1

/-- The first inner loop of the carry pass (lines 89-93) with the store as a
parameter. -/
def carry_up_with (store : Int → Option Int) : Nat → dlist_t → Nat → Option dlist_t
  | 0, _, _ => none
  | fuel + 1, res, i => do
      let d ← dl_get res i
      if d > 9 then
        let w ← store (d - 10)
        let res1 ← dl_put res i w
        let n ← dl_get res1 (i + 1)
        let w1 ← store (n + 1)
        let res2 ← dl_put res1 (i + 1) w1
        carry_up_with store fuel res2 i
      else
        some res

/-- The second inner loop of the carry pass (lines 95-99) with the store as a
parameter. -/
def carry_down_with (store : Int → Option Int) : Nat → dlist_t → Nat → Option dlist_t
  | 0, _, _ => none
  | fuel + 1, res, i => do
      let d ← dl_get res i
      if d < -9 then
        let w ← store (d + 10)
        let res1 ← dl_put res i w
        let n ← dl_get res1 (i + 1)
        let w1 ← store (n - 1)
        let res2 ← dl_put res1 (i + 1) w1
        carry_down_with store fuel res2 i
      else
        some res

/-- The carry pass (lines 87-100) with the store as a parameter. -/
def bi_add_carry_with (store : Int → Option Int) (fuel : Nat) :
    Nat → Nat → dlist_t → Option dlist_t
  | 0, _, res => some res
  | k + 1, i, res => do
      let res1 ← carry_up_with store fuel res i
      let res2 ← carry_down_with store fuel res1 i
      bi_add_carry_with store fuel k (i + 1) res2

/-- The function `bi_add` (lines 61-109) with the store as a parameter. -/
def bi_add_with (store : Int → Option Int) (fuel : Nat) (op_ op__ : bigint_t) :
    Option bigint_t := do
  let (l, s) := if dlist_used op_.data > dlist_used op__.data then (op_, op__) else (op__, op_)
  let res := bi_init.data
  let res ← bi_add_copy l.data l.data.length 0 res
  let res := dl_add res 0
  let res ← bi_add_accum_with store s.data s.data.length 0 res
  let res ← bi_add_carry_with store fuel (dlist_used res - 1).toNat 0 res
  let last ← dl_get res (dlist_used res - 1)
  if last = 0 then
    some ⟨dl_rem res (dlist_used res - 1).toNat⟩
  else
    some ⟨res⟩

/-! ## Operands and results in a heap

`bi_add` and `bi_sub` take pointers and return a pointer to a new BigInt.
Here the digit sequences live in a heap; a BigInt is the address of its digit
sequence.  Every loop reads its operand from the heap as it is at that
iteration. -/

/-- The heap of digit sequences: entry `p` is `some d` while the sequence at
address `p` is live, `none` once it is released. -/
abbrev heap_t := List (Option dlist_t)

/-- The live digit sequence at address `p`. -/
def h_read (h : heap_t) (p : Nat) : Option dlist_t :=
  match h[p]? with
  | some (some d) => some d
  | _ => none

/-- Replaces the live digit sequence at address `p`. -/
def h_write (h : heap_t) (p : Nat) (d : dlist_t) : Option heap_t :=
  match h_read h p with
  | some _ => some (h.set p (some d))
  | none => none

/-- The function `bi_init` on a new BigInt (lines 25-29): `malloc` and
`dl_init` give an empty digit sequence at an address not in use. -/
def h_bi_init (h : heap_t) : heap_t × Nat := (h ++ [some dl_init], h.length)

/-- The function `bi_free` (lines 31-35): releases the digit sequence. -/
def h_bi_free (h : heap_t) (p : Nat) : Option heap_t :=
  match h_read h p with
  | some _ => some (h.set p none)
  | none => none

/-- The copy loop of `bi_add` (lines 74-77) on the heap.  The test
`i < l->data->used` reads the heap before every iteration; `k` bounds the
number of iterations. -/
def bi_add_copy_h (l res : Nat) : Nat → Nat → heap_t → Option heap_t
  | 0, i, h => do
      let ld ← h_read h l
      if (i : Int) < dlist_used ld then none else some h
  | k + 1, i, h => do
      let ld ← h_read h l
      if (i : Int) < dlist_used ld then
        let v ← dl_get ld i
        let rd ← h_read h res
        let h1 ← h_write h res (dl_add rd v)
        bi_add_copy_h l res k (i + 1) h1
      else
        some h

/-- The accumulation loop of `bi_add` (lines 81-84) on the heap. -/
def bi_add_accum_h (s res : Nat) : Nat → Nat → heap_t → Option heap_t
  | 0, i, h => do
      let sd ← h_read h s
      if (i : Int) < dlist_used sd then none else some h
  | k + 1, i, h => do
      let sd ← h_read h s
      if (i : Int) < dlist_used sd then
        let rd ← h_read h res
        let r ← dl_get rd i
        let v ← dl_get sd i
        let rd1 ← dl_put rd i (wrap8 (r + v))
        let h1 ← h_write h res rd1
        bi_add_accum_h s res k (i + 1) h1
      else
        some h

/-- The function `bi_add` (lines 61-109) on the heap: the operands are the
addresses `op_` and `op__`, the result is the new heap and the address of the
new BigInt.  Lines 86-108 read and write `res` alone; they are `bi_add_tail`
on its cells. -/
def bi_add_h (fuel : Nat) (h : heap_t) (op_ op__ : Nat) : Option (heap_t × Nat) := do
  let a ← h_read h op_
  let b ← h_read h op__
  let (l, s) := if dlist_used a > dlist_used b then (op_, op__) else (op__, op_)
  let (h, res) := h_bi_init h
  let ld ← h_read h l
  let h ← bi_add_copy_h l res ld.length 0 h
  let rd ← h_read h res
  let h ← h_write h res (dl_add rd 0)
  let sd ← h_read h s
  let h ← bi_add_accum_h s res sd.length 0 h
  let rd ← h_read h res
  let r ← bi_add_tail fuel rd
  let h ← h_write h res r.data
  some (h, res)

/-- The negation loop of `bi_sub` (lines 117-121) on the heap. -/
def bi_sub_inv_h (op inv : Nat) : Nat → Nat → heap_t → Option heap_t
  | 0, i, h => do
      let od ← h_read h op
      if (i : Int) < dlist_used od then none else some h
  | k + 1, i, h => do
      let od ← h_read h op
      if (i : Int) < dlist_used od then
        let v ← dl_get od i
        let vd ← h_read h inv
        let h1 ← h_write h inv (dl_add vd v)
        let vd1 ← h_read h1 inv
        let w ← dl_get vd1 i
        let vd2 ← dl_put vd1 i (wrap8 (w * -1))
        let h2 ← h_write h1 inv vd2
        bi_sub_inv_h op inv k (i + 1) h2
      else
        some h

/-- The function `bi_sub` (lines 111-128) on the heap. -/
def bi_sub_h (fuel : Nat) (h : heap_t) (op_ op__ : Nat) : Option (heap_t × Nat) := do
  let (h, inv) := h_bi_init h
  let od ← h_read h op__
  let h ← bi_sub_inv_h op__ inv od.length 0 h
  let (h, res) ← bi_add_h fuel h op_ inv
  let h ← h_bi_free h inv
  some (h, res)

/-! ## Cells and container lemmas -/

theorem wrap8_of_range {x : Int} (h1 : -128 ≤ x) (h2 : x ≤ 127) : wrap8 x = x := by
  unfold wrap8; omega

theorem getElem?_append_length (pre : List Int) (x : Int) (t : List Int) :
    (pre ++ x :: t)[pre.length]? = some x := by
  induction pre with
  | nil => simp
  | cons p ps ih => simpa using ih

theorem dl_get_append (pre : List Int) (x : Int) (t : List Int) :
    dl_get (pre ++ x :: t) (pre.length : Int) = some x := by
  have h : ¬ ((pre.length : Int) < 0) := by omega
  unfold dl_get
  rw [if_neg h, Int.toNat_ofNat]
  exact getElem?_append_length pre x t

theorem dl_get_append_succ (pre : List Int) (x y : Int) (t : List Int) :
    dl_get (pre ++ x :: y :: t) ((pre.length : Int) + 1) = some y := by
  have h := dl_get_append (pre ++ [x]) y t
  simpa using h

theorem dl_put_append (pre : List Int) (x v : Int) (t : List Int) :
    dl_put (pre ++ x :: t) (pre.length : Int) v = some (pre ++ v :: t) := by
  have h : ¬ ((pre.length : Int) < 0) := by omega
  simp [dl_put, h]

theorem dl_put_append_succ (pre : List Int) (x y v : Int) (t : List Int) :
    dl_put (pre ++ x :: y :: t) ((pre.length : Int) + 1) v = some (pre ++ x :: v :: t) := by
  have h := dl_put_append (pre ++ [x]) y v t
  simpa using h

/-! ## The loops of `bi_add` and `bi_sub` as list functions -/

theorem bi_add_copy_eq (lrest : List Int) : ∀ (lpre res : List Int),
    bi_add_copy (lpre ++ lrest) lrest.length lpre.length res = some (res ++ lrest) := by
  induction lrest with
  | nil => intro lpre res; simp [bi_add_copy]
  | cons x t ih =>
    intro lpre res
    have h := ih (lpre ++ [x]) (res ++ [x])
    simp only [List.length_append, List.length_singleton, List.append_assoc,
      List.singleton_append] at h
    simp only [List.length_cons, bi_add_copy, dl_get_append, dl_add]
    simpa using h

theorem bi_add_accum_eq (srest : List Int) : ∀ (spre pre rest : List Int),
    spre.length = pre.length → srest.length ≤ rest.length →
    bi_add_accum (spre ++ srest) srest.length pre.length (pre ++ rest)
      = some (pre ++ add_into rest srest) := by
  induction srest with
  | nil => intro spre pre rest _ _; cases rest <;> simp [bi_add_accum, add_into]
  | cons v vs ih =>
    intro spre pre rest hlen hle
    cases rest with
    | nil => simp at hle
    | cons r rs =>
      have hle2 : vs.length ≤ rs.length := by simpa using hle
      have h := ih (spre ++ [v]) (pre ++ [wrap8 (r + v)]) rs (by simp [hlen]) hle2
      simp only [List.length_append, List.length_singleton, List.append_assoc,
        List.singleton_append] at h
      have hg : dl_get (spre ++ v :: vs) (pre.length : Int) = some v := by
        rw [← hlen]; exact dl_get_append spre v vs
      simp only [List.length_cons, bi_add_accum, dl_get_append, hg, dl_put_append, add_into]
      simpa using h

theorem bi_sub_inv_eq (orest : List Int) : ∀ (opre inv : List Int),
    inv.length = opre.length →
    bi_sub_inv (opre ++ orest) orest.length opre.length inv
      = some (inv ++ orest.map fun v => wrap8 (v * -1)) := by
  induction orest with
  | nil => intro opre inv _; simp [bi_sub_inv]
  | cons x t ih =>
    intro opre inv hlen
    have h := ih (opre ++ [x]) (inv ++ [wrap8 (x * -1)]) (by simp [hlen])
    simp only [List.length_append, List.length_singleton, List.append_assoc,
      List.singleton_append] at h
    have hg : dl_get (inv ++ [x]) (opre.length : Int) = some x := by
      rw [← hlen]; exact dl_get_append inv x []
    have hp : dl_put (inv ++ [x]) (opre.length : Int) (wrap8 (x * -1))
        = some (inv ++ [wrap8 (x * -1)]) := by
      rw [← hlen]; exact dl_put_append inv x _ []
    simp only [List.length_cons, bi_sub_inv, dl_get_append, dl_add, Option.bind_eq_bind,
      Option.some_bind, hg, hp]
    simpa using h

theorem carry_at (fuel : Nat) (hf : 2 ≤ fuel) (pre : List Int) (x y : Int) (t : List Int)
    (hx : -19 ≤ x ∧ x ≤ 19) (hy : -127 ≤ y ∧ y ≤ 126) :
    (carry_up fuel (pre ++ x :: y :: t) pre.length).bind
        (fun r => carry_down fuel r pre.length)
      = some (pre ++ (carry_step x y).1 :: (carry_step x y).2 :: t) := by
  obtain ⟨f, rfl⟩ : ∃ f, fuel = f + 2 := ⟨fuel - 2, by omega⟩
  by_cases h1 : x > 9
  · have w1 : wrap8 (x - 10) = x - 10 := wrap8_of_range (by omega) (by omega)
    have w2 : wrap8 (y + 1) = y + 1 := wrap8_of_range (by omega) (by omega)
    have h2 : ¬ (x - 10 > 9) := by omega
    have h3 : ¬ (x - 10 < -9) := by omega
    simp [carry_up, carry_down, carry_step, dl_get_append, dl_put_append,
      dl_get_append_succ, dl_put_append_succ, h1, h2, h3, w1, w2]
  · by_cases h4 : x < -9
    · have w1 : wrap8 (x + 10) = x + 10 := wrap8_of_range (by omega) (by omega)
      have w2 : wrap8 (y - 1) = y - 1 := wrap8_of_range (by omega) (by omega)
      have h2 : ¬ (x + 10 < -9) := by omega
      simp [carry_up, carry_down, carry_step, dl_get_append, dl_put_append,
        dl_get_append_succ, dl_put_append_succ, h1, h2, h4, w1, w2]
    · simp [carry_up, carry_down, carry_step, dl_get_append, h1, h4]

theorem carry_step_fst (x y : Int) (hx : -19 ≤ x ∧ x ≤ 19) :
    -9 ≤ (carry_step x y).1 ∧ (carry_step x y).1 ≤ 9 := by
  unfold carry_step; split_ifs <;> simp <;> omega

theorem carry_step_snd (x y : Int) :
    y - 1 ≤ (carry_step x y).2 ∧ (carry_step x y).2 ≤ y + 1 := by
  unfold carry_step; split_ifs <;> refine ⟨?_, ?_⟩ <;> dsimp only <;> omega

theorem carry_step_value (x y : Int) :
    (carry_step x y).1 + 10 * (carry_step x y).2 = x + 10 * y := by
  unfold carry_step; split_ifs <;> simp <;> ring

theorem bi_add_carry_eq (fuel : Nat) (hf : 2 ≤ fuel) (t : List Int) :
    ∀ (pre : List Int) (x : Int), -19 ≤ x ∧ x ≤ 19 → cells_le 18 t →
    bi_add_carry fuel t.length pre.length (pre ++ x :: t) = some (pre ++ ripple_from x t) := by
  induction t with
  | nil => intro pre x _ _; simp [bi_add_carry, ripple_from]
  | cons y t ih =>
    intro pre x hx ht
    have hy : -18 ≤ y ∧ y ≤ 18 := ht y (by simp)
    have ht2 : cells_le 18 t := fun d hd => ht d (by simp [hd])
    have hs := carry_step_snd x y
    have hc := carry_at fuel hf pre x y t hx (by omega)
    have h := ih (pre ++ [(carry_step x y).1]) (carry_step x y).2 (by omega) ht2
    simp only [List.length_append, List.length_singleton, List.append_assoc,
      List.singleton_append] at h
    rw [Option.bind_eq_some] at hc
    obtain ⟨r1, hr1, hr2⟩ := hc
    simp only [List.length_cons, bi_add_carry, ripple_from]
    simp only [hr1, hr2, h, Option.bind_eq_bind, Option.some_bind]

/-! ## The value in Horner form -/

theorem sum_range_eq_hval (l : List Int) :
    ((List.range l.length).map fun i => l.getD i 0 * 10 ^ i).sum = hval l := by
  induction l with
  | nil => simp [hval]
  | cons d t ih =>
    rw [List.length_cons, List.range_succ_eq_map, List.map_cons, List.sum_cons, List.map_map]
    have h : ((fun i => (d :: t).getD i 0 * 10 ^ i) ∘ Nat.succ)
        = fun i => 10 * (t.getD i 0 * 10 ^ i) := by
      funext i
      simp only [Function.comp, List.getD_cons_succ, pow_succ]
      ring
    rw [h, List.sum_map_mul_left, ih]
    simp [hval]

theorem value_eq_hval (b : bigint_t) : value b = hval b.data :=
  sum_range_eq_hval b.data

theorem hval_append (m t : List Int) : hval (m ++ t) = hval m + 10 ^ m.length * hval t := by
  induction m with
  | nil => simp [hval]
  | cons d m ih =>
    rw [List.cons_append]
    simp only [hval, ih, List.length_cons, pow_succ]
    ring

theorem hval_snoc_zero (l : List Int) : hval (l ++ [0]) = hval l := by
  simp [hval_append, hval]

/-! ## The last cell -/

theorem dl_get_last (r : List Int) (h : r ≠ []) :
    dl_get r (dlist_used r - 1) = r.getLast? := by
  rcases List.eq_nil_or_concat r with rfl | ⟨m, c, rfl⟩
  · exact absurd rfl h
  · rw [List.concat_eq_append] at *
    have e : dlist_used (m ++ [c]) - 1 = (m.length : Int) := by simp [dlist_used]
    rw [e, dl_get_append]
    simp

theorem dl_rem_last (r : List Int) :
    dl_rem r (dlist_used r - 1).toNat = r.dropLast := by
  rcases List.eq_nil_or_concat r with rfl | ⟨m, c, rfl⟩
  · simp [dl_rem]
  · rw [List.concat_eq_append]
    have e : (dlist_used (m ++ [c]) - 1).toNat = m.length := by simp [dlist_used]
    rw [e]
    simp [dl_rem]

/-! ## Properties of the list functions -/

theorem add_into_length (rs : List Int) : ∀ vs, (add_into rs vs).length = rs.length := by
  induction rs with
  | nil => intro vs; cases vs <;> simp [add_into]
  | cons r rs ih => intro vs; cases vs <;> simp [add_into, ih]

theorem add_into_snoc (rs : List Int) : ∀ vs, vs.length ≤ rs.length → ∀ z,
    add_into (rs ++ [z]) vs = add_into rs vs ++ [z] := by
  induction rs with
  | nil => intro vs h z; cases vs <;> simp_all [add_into]
  | cons r rs ih =>
    intro vs h z
    cases vs with
    | nil => simp [add_into]
    | cons v vs => simp [add_into, ih vs (by simpa using h) z]

theorem add_into_range (rs : List Int) : ∀ vs, cells_le 9 rs → cells_le 9 vs →
    vs.length ≤ rs.length →
    cells_le 18 (add_into rs vs) ∧ hval (add_into rs vs) = hval rs + hval vs := by
  induction rs with
  | nil =>
    intro vs _ _ h
    cases vs with
    | nil => simp [add_into, cells_le, hval]
    | cons v vs => simp at h
  | cons r rs ih =>
    intro vs hr hv h
    cases vs with
    | nil =>
      refine ⟨?_, by simp [add_into, hval]⟩
      intro d hd
      have := hr d (by simpa [add_into] using hd)
      omega
    | cons v vs =>
      have h1 := hr r (by simp)
      have h2 := hv v (by simp)
      obtain ⟨i1, i2⟩ := ih vs (fun d hd => hr d (by simp [hd])) (fun d hd => hv d (by simp [hd]))
        (by simpa using h)
      have w : wrap8 (r + v) = r + v := wrap8_of_range (by omega) (by omega)
      refine ⟨?_, ?_⟩
      · intro d hd
        simp only [add_into, w, List.mem_cons] at hd
        rcases hd with rfl | hd
        · omega
        · exact i1 d hd
      · simp only [add_into, w, hval, i2]; ring

theorem ripple_from_length (t : List Int) : ∀ x, (ripple_from x t).length = t.length + 1 := by
  induction t with
  | nil => intro x; simp [ripple_from]
  | cons y t ih => intro x; simp [ripple_from, ih]

theorem ripple_length (r : List Int) : (ripple r).length = r.length := by
  cases r with
  | nil => simp [ripple]
  | cons x t => simp [ripple, ripple_from_length]

theorem hval_ripple_from (t : List Int) : ∀ x, hval (ripple_from x t) = hval (x :: t) := by
  induction t with
  | nil => intro x; simp [ripple_from]
  | cons y t ih =>
    intro x
    have h := carry_step_value x y
    simp only [ripple_from, hval, ih] at *
    linarith

theorem hval_ripple (r : List Int) : hval (ripple r) = hval r := by
  cases r with
  | nil => simp [ripple]
  | cons x t => simp [ripple, hval_ripple_from]

theorem ripple_from_snoc (t : List Int) : ∀ x, -19 ≤ x ∧ x ≤ 19 → cells_le 18 t →
    ∃ m c, ripple_from x (t ++ [0]) = m ++ [c] ∧ m.length = t.length + 1 ∧ cells_le 9 m
      ∧ -1 ≤ c ∧ c ≤ 1 := by
  induction t with
  | nil =>
    intro x hx _
    refine ⟨[(carry_step x 0).1], (carry_step x 0).2, by simp [ripple_from], by simp, ?_, ?_⟩
    · intro d hd
      have := carry_step_fst x 0 hx
      simp only [List.mem_singleton] at hd
      subst hd; exact this
    · have := carry_step_snd x 0
      omega
  | cons y t ih =>
    intro x hx ht
    have hy := ht y (by simp)
    have hs := carry_step_snd x y
    obtain ⟨m, c, e, hl, hm, hc⟩ := ih (carry_step x y).2 (by omega)
      (fun d hd => ht d (by simp [hd]))
    refine ⟨(carry_step x y).1 :: m, c, by simp [ripple_from, e], by simp [hl], ?_, hc⟩
    intro d hd
    simp only [List.mem_cons] at hd
    rcases hd with rfl | hd
    · exact carry_step_fst x y hx
    · exact hm d hd

/-! ## `bi_add` and `bi_sub` on operands with digits in `[-9, 9]` -/

theorem bi_add_unfold (fuel : Nat) (a b : bigint_t) :
    bi_add fuel a b =
      if a.data.length > b.data.length then bi_add_body fuel a.data b.data
      else bi_add_body fuel b.data a.data := by
  unfold bi_add bi_add_body dlist_used
  by_cases h : a.data.length > b.data.length
  · have h2 : (a.data.length : Int) > (b.data.length : Int) := by omega
    simp only [h, h2, if_true]
  · have h2 : ¬ (a.data.length : Int) > (b.data.length : Int) := by omega
    simp only [h, h2, if_false]

theorem carry_all (fuel : Nat) (hf : 2 ≤ fuel) (r : List Int) (hr : cells_le 18 r) :
    bi_add_carry fuel (dlist_used r - 1).toNat 0 r = some (ripple r) := by
  cases r with
  | nil => simp [bi_add_carry, ripple, dlist_used]
  | cons x t =>
    have e : (dlist_used (x :: t) - 1).toNat = t.length := by simp [dlist_used]
    have hx := hr x (by simp)
    have h := bi_add_carry_eq fuel hf t [] x (by omega) (fun d hd => hr d (by simp [hd]))
    rw [e]
    simpa [ripple] using h

theorem strip_last (r : List Int) (h : r ≠ []) :
    (dl_get r (dlist_used r - 1)).bind
        (fun last => if last = 0 then some (bigint_t.mk (dl_rem r (dlist_used r - 1).toNat))
          else some (bigint_t.mk r))
      = some ⟨strip r⟩ := by
  rw [dl_get_last r h, dl_rem_last]
  rcases List.eq_nil_or_concat r with rfl | ⟨m, c, rfl⟩
  · exact absurd rfl h
  · rw [List.concat_eq_append]
    by_cases hc : c = 0 <;> simp [strip, hc]

theorem bi_add_body_eq (fuel : Nat) (hf : 2 ≤ fuel) (l s : List Int)
    (hl : cells_le 9 l) (hs : cells_le 9 s) (hlen : s.length ≤ l.length) :
    bi_add_body fuel l s = some ⟨add_lists l s⟩ := by
  have h1 : bi_add_copy l l.length 0 bi_init.data = some l := by
    simpa [bi_init, dl_init] using bi_add_copy_eq l [] []
  have h2 : bi_add_accum s s.length 0 (l ++ [0]) = some (add_into (l ++ [0]) s) := by
    simpa using bi_add_accum_eq s [] [] (l ++ [0]) rfl (by simp; omega)
  have h3 : cells_le 18 (add_into (l ++ [0]) s) := by
    rw [add_into_snoc l s hlen 0]
    intro d hd
    rcases List.mem_append.1 hd with hd | hd
    · exact (add_into_range l s hl hs hlen).1 d hd
    · simp only [List.mem_singleton] at hd
      subst hd; omega
  have h4 := carry_all fuel hf _ h3
  have h5 : ripple (add_into (l ++ [0]) s) ≠ [] := by
    intro e
    have := congrArg List.length e
    simp [ripple_length, add_into_length] at this
  have h6 := strip_last _ h5
  unfold bi_add_body
  simp only [h1, dl_add, h2, h4, Option.bind_eq_bind, Option.some_bind]
  exact h6

theorem strip_snoc (m : List Int) (c : Int) :
    strip (m ++ [c]) = if c = 0 then m else m ++ [c] := by
  by_cases hc : c = 0 <;> simp [strip, hc]

theorem hval_strip (r : List Int) : hval (strip r) = hval r := by
  rcases List.eq_nil_or_concat r with rfl | ⟨m, c, rfl⟩
  · simp [strip]
  · rw [List.concat_eq_append, strip_snoc]
    by_cases hc : c = 0
    · simp [hc, hval_snoc_zero]
    · simp [hc]

theorem hval_add_lists (l s : List Int) (hl : cells_le 9 l) (hs : cells_le 9 s)
    (hlen : s.length ≤ l.length) : hval (add_lists l s) = hval l + hval s := by
  unfold add_lists
  rw [hval_strip, hval_ripple, add_into_snoc l s hlen 0, hval_snoc_zero]
  exact (add_into_range l s hl hs hlen).2

theorem add_lists_range (l s : List Int) (hl : cells_le 9 l) (hs : cells_le 9 s)
    (hlen : s.length ≤ l.length) : cells_le 9 (add_lists l s) := by
  unfold add_lists
  rw [add_into_snoc l s hlen 0]
  have h18 := (add_into_range l s hl hs hlen).1
  cases hr : add_into l s with
  | nil =>
    have e : strip (ripple ([] ++ [(0 : Int)])) = [] := by decide
    rw [e]
    intro d hd
    simp at hd
  | cons x t =>
    rw [hr] at h18
    have hx := h18 x (by simp)
    obtain ⟨m, c, e, _, hm, hc1, hc2⟩ := ripple_from_snoc t x (by omega)
      (fun d hd => h18 d (by simp [hd]))
    have e2 : ripple (x :: t ++ [0]) = m ++ [c] := by simpa [ripple] using e
    rw [e2, strip_snoc]
    by_cases hc : c = 0
    · simpa [hc] using hm
    · rw [if_neg hc]
      intro d hd
      rcases List.mem_append.1 hd with hd | hd
      · exact hm d hd
      · simp only [List.mem_singleton] at hd
        subst hd; omega

/-- On operands with digits in `[-9, 9]`, `bi_add` returns a result with
digits in `[-9, 9]` whose value is the sum of the operands' values. -/
theorem bi_add_ok (fuel : Nat) (hf : 2 ≤ fuel) (a b : bigint_t)
    (ha : digits_ok a) (hb : digits_ok b) :
    ∃ r, bi_add fuel a b = some r ∧ digits_ok r ∧ value r = value a + value b := by
  rw [bi_add_unfold]
  by_cases h : a.data.length > b.data.length
  · rw [if_pos h, bi_add_body_eq fuel hf a.data b.data ha hb (by omega)]
    refine ⟨_, rfl, add_lists_range _ _ ha hb (by omega), ?_⟩
    rw [value_eq_hval, value_eq_hval, value_eq_hval]
    exact hval_add_lists _ _ ha hb (by omega)
  · rw [if_neg h, bi_add_body_eq fuel hf b.data a.data hb ha (by omega)]
    refine ⟨_, rfl, add_lists_range _ _ hb ha (by omega), ?_⟩
    rw [value_eq_hval, value_eq_hval, value_eq_hval, add_comm]
    exact hval_add_lists _ _ hb ha (by omega)

theorem bi_sub_unfold (fuel : Nat) (a b : bigint_t) :
    bi_sub fuel a b = bi_add fuel a ⟨b.data.map fun v => wrap8 (v * -1)⟩ := by
  have h : bi_sub_inv b.data b.data.length 0 bi_init.data
      = some (b.data.map fun v => wrap8 (v * -1)) := by
    simpa [bi_init, dl_init] using bi_sub_inv_eq b.data [] [] rfl
  unfold bi_sub
  simp only [h, Option.bind_eq_bind, Option.some_bind]

theorem negated_eq (b : bigint_t) (hb : digits_ok b) :
    (bigint_t.mk (b.data.map fun v => wrap8 (v * -1))) = negated b := by
  unfold negated
  congr 1
  apply List.map_congr_left
  intro d hd
  have := hb d hd
  exact wrap8_of_range (by omega) (by omega)

theorem negated_ok (b : bigint_t) (hb : digits_ok b) : digits_ok (negated b) := by
  intro d hd
  simp only [negated, List.mem_map] at hd
  obtain ⟨e, he, rfl⟩ := hd
  have := hb e he
  omega

theorem hval_neg (l : List Int) : hval (l.map fun d => d * -1) = - hval l := by
  induction l with
  | nil => simp [hval]
  | cons d t ih => simp only [List.map_cons, hval, ih]; ring

theorem value_negated (b : bigint_t) : value (negated b) = - value b := by
  rw [value_eq_hval, value_eq_hval]
  exact hval_neg b.data

/-- On operands with digits in `[-9, 9]`, `bi_sub` is `bi_add` on the negated
second operand; the result has digits in `[-9, 9]` and the difference of the
operands' values as its value. -/
theorem bi_sub_ok (fuel : Nat) (hf : 2 ≤ fuel) (a b : bigint_t)
    (ha : digits_ok a) (hb : digits_ok b) :
    ∃ r, bi_sub fuel a b = some r ∧ bi_add fuel a (negated b) = some r ∧ digits_ok r
      ∧ value r = value a - value b := by
  obtain ⟨r, h1, h2, h3⟩ := bi_add_ok fuel hf a (negated b) ha (negated_ok b hb)
  refine ⟨r, ?_, h1, h2, ?_⟩
  · rw [bi_sub_unfold, negated_eq b hb]; exact h1
  · rw [h3, value_negated]; ring

/-! ## Claims on the value of sums and differences -/

/-- Claim C1: for operands whose digits all lie in `[-9, 9]` (any lengths, any
mix of digit signs), `bi_add` returns, and the value of its result is the sum
of the operands' values. -/
theorem bi_add_value (fuel : Nat) (hf : 2 ≤ fuel) (a b : bigint_t)
    (ha : digits_ok a) (hb : digits_ok b) :
    ∃ r, bi_add fuel a b = some r ∧ value r = value a + value b := by
  obtain ⟨r, h1, _, h3⟩ := bi_add_ok fuel hf a b ha hb
  exact ⟨r, h1, h3⟩

theorem bi_add_value_witness :
    digits_ok ⟨[-9, 9, 3]⟩ ∧ digits_ok ⟨[9, -9]⟩ ∧
      ∃ r, bi_add 2 ⟨[-9, 9, 3]⟩ ⟨[9, -9]⟩ = some r
        ∧ value r = value ⟨[-9, 9, 3]⟩ + value ⟨[9, -9]⟩ :=
  ⟨by decide, by decide, bi_add_value 2 (by decide) ⟨[-9, 9, 3]⟩ ⟨[9, -9]⟩ (by decide) (by decide)⟩

/-- Claim C2: for operands whose digits all lie in `[-9, 9]`, `bi_sub` returns
what `bi_add` returns on the first operand and the digit-wise negation of the
second (same length, digits still in `[-9, 9]`), and the value of the result is
the difference of the operands' values. -/
theorem bi_sub_value (fuel : Nat) (hf : 2 ≤ fuel) (a b : bigint_t)
    (ha : digits_ok a) (hb : digits_ok b) :
    (negated b).data.length = b.data.length ∧ digits_ok (negated b) ∧
      ∃ r, bi_sub fuel a b = some r ∧ bi_add fuel a (negated b) = some r
        ∧ value r = value a - value b := by
  obtain ⟨r, h1, h2, _, h4⟩ := bi_sub_ok fuel hf a b ha hb
  exact ⟨by simp [negated], negated_ok b hb, r, h1, h2, h4⟩

theorem bi_sub_value_witness :
    digits_ok ⟨[0, 0, 0, 1]⟩ ∧ digits_ok ⟨[1]⟩ ∧
      (negated ⟨[1]⟩).data.length = (bigint_t.mk [1]).data.length ∧ digits_ok (negated ⟨[1]⟩) ∧
      ∃ r, bi_sub 2 ⟨[0, 0, 0, 1]⟩ ⟨[1]⟩ = some r ∧ bi_add 2 ⟨[0, 0, 0, 1]⟩ (negated ⟨[1]⟩) = some r
        ∧ value r = value ⟨[0, 0, 0, 1]⟩ - value ⟨[1]⟩ :=
  ⟨by decide, by decide, bi_sub_value 2 (by decide) ⟨[0, 0, 0, 1]⟩ ⟨[1]⟩ (by decide) (by decide)⟩

/-- Claim C7: for operands whose digits lie in `[-9, 9]`, every digit of the
result of `bi_add` and of the result of `bi_sub` lies in `[-9, 9]`, so results
are again operands of this kind. -/
theorem bi_add_sub_digit_range (fuel : Nat) (hf : 2 ≤ fuel) (a b : bigint_t)
    (ha : digits_ok a) (hb : digits_ok b) :
    (∃ r, bi_add fuel a b = some r ∧ ∀ d ∈ r.data, -9 ≤ d ∧ d ≤ 9) ∧
      (∃ r, bi_sub fuel a b = some r ∧ ∀ d ∈ r.data, -9 ≤ d ∧ d ≤ 9) := by
  obtain ⟨r, h1, h2, _⟩ := bi_add_ok fuel hf a b ha hb
  obtain ⟨q, k1, _, k3, _⟩ := bi_sub_ok fuel hf a b ha hb
  exact ⟨⟨r, h1, h2⟩, ⟨q, k1, k3⟩⟩

theorem bi_add_sub_digit_range_witness :
    digits_ok ⟨[9, 9, -9]⟩ ∧ digits_ok ⟨[9, -9, -9]⟩ ∧
      (∃ r, bi_add 2 ⟨[9, 9, -9]⟩ ⟨[9, -9, -9]⟩ = some r ∧ ∀ d ∈ r.data, -9 ≤ d ∧ d ≤ 9) ∧
      (∃ r, bi_sub 2 ⟨[9, 9, -9]⟩ ⟨[9, -9, -9]⟩ = some r ∧ ∀ d ∈ r.data, -9 ≤ d ∧ d ≤ 9) :=
  ⟨by decide, by decide,
    bi_add_sub_digit_range 2 (by decide) ⟨[9, 9, -9]⟩ ⟨[9, -9, -9]⟩ (by decide) (by decide)⟩

/-- Claim C8 (commutativity): for operands with digits in `[-9, 9]`,
`bi_add a b` and `bi_add b a` both return, and their results represent the
same value. -/
theorem bi_add_comm_value (fuel : Nat) (hf : 2 ≤ fuel) (a b : bigint_t)
    (ha : digits_ok a) (hb : digits_ok b) :
    ∃ r q, bi_add fuel a b = some r ∧ bi_add fuel b a = some q ∧ value r = value q := by
  obtain ⟨r, h1, _, h3⟩ := bi_add_ok fuel hf a b ha hb
  obtain ⟨q, k1, _, k3⟩ := bi_add_ok fuel hf b a hb ha
  exact ⟨r, q, h1, k1, by rw [h3, k3, add_comm]⟩

theorem bi_add_comm_value_witness :
    digits_ok ⟨[5, -7]⟩ ∧ digits_ok ⟨[8, 8, 8]⟩ ∧
      ∃ r q, bi_add 2 ⟨[5, -7]⟩ ⟨[8, 8, 8]⟩ = some r ∧ bi_add 2 ⟨[8, 8, 8]⟩ ⟨[5, -7]⟩ = some q
        ∧ value r = value q :=
  ⟨by decide, by decide,
    bi_add_comm_value 2 (by decide) ⟨[5, -7]⟩ ⟨[8, 8, 8]⟩ (by decide) (by decide)⟩

/-- Claim C9 (associativity): for operands with digits in `[-9, 9]`, the
intermediate sums `bi_add a b` and `bi_add b c` again have digits in `[-9, 9]`,
both `bi_add (bi_add a b) c` and `bi_add a (bi_add b c)` return, and their
results represent the same value. -/
theorem bi_add_assoc_value (fuel : Nat) (hf : 2 ≤ fuel) (a b c : bigint_t)
    (ha : digits_ok a) (hb : digits_ok b) (hc : digits_ok c) :
    ∃ ab bc x y, bi_add fuel a b = some ab ∧ digits_ok ab ∧ bi_add fuel ab c = some x
      ∧ bi_add fuel b c = some bc ∧ digits_ok bc ∧ bi_add fuel a bc = some y
      ∧ value x = value y := by
  obtain ⟨ab, h1, h2, h3⟩ := bi_add_ok fuel hf a b ha hb
  obtain ⟨bc, k1, k2, k3⟩ := bi_add_ok fuel hf b c hb hc
  obtain ⟨x, x1, _, x3⟩ := bi_add_ok fuel hf ab c h2 hc
  obtain ⟨y, y1, _, y3⟩ := bi_add_ok fuel hf a bc ha k2
  exact ⟨ab, bc, x, y, h1, h2, x1, k1, k2, y1, by rw [x3, y3, h3, k3, add_assoc]⟩

theorem bi_add_assoc_value_witness :
    digits_ok ⟨[9, 9]⟩ ∧ digits_ok ⟨[1]⟩ ∧ digits_ok ⟨[-3, -2, -1]⟩ ∧
      ∃ ab bc x y, bi_add 2 ⟨[9, 9]⟩ ⟨[1]⟩ = some ab ∧ digits_ok ab
        ∧ bi_add 2 ab ⟨[-3, -2, -1]⟩ = some x
        ∧ bi_add 2 ⟨[1]⟩ ⟨[-3, -2, -1]⟩ = some bc ∧ digits_ok bc
        ∧ bi_add 2 ⟨[9, 9]⟩ bc = some y ∧ value x = value y :=
  ⟨by decide, by decide, by decide,
    bi_add_assoc_value 2 (by decide) ⟨[9, 9]⟩ ⟨[1]⟩ ⟨[-3, -2, -1]⟩
      (by decide) (by decide) (by decide)⟩

/-- Claim C10 (inverse): for every operand `a` with digits in `[-9, 9]`,
`bi_sub a a` returns and its result represents zero. -/
theorem bi_sub_self_value (fuel : Nat) (hf : 2 ≤ fuel) (a : bigint_t) (ha : digits_ok a) :
    ∃ r, bi_sub fuel a a = some r ∧ value r = 0 := by
  obtain ⟨r, h1, _, _, h4⟩ := bi_sub_ok fuel hf a a ha ha
  exact ⟨r, h1, by rw [h4, sub_self]⟩

theorem bi_sub_self_value_witness :
    digits_ok ⟨[7, 0, -4, 2]⟩ ∧ ∃ r, bi_sub 2 ⟨[7, 0, -4, 2]⟩ ⟨[7, 0, -4, 2]⟩ = some r ∧ value r = 0 :=
  ⟨by decide, bi_sub_self_value 2 (by decide) ⟨[7, 0, -4, 2]⟩ (by decide)⟩

/-! ## `bi_load` -/

theorem bi_load_loop_eq (sign : Int) (cs : List Char) : ∀ d : List Int,
    bi_load_loop sign cs d
      = (cs.map fun c => wrap8 (((c.toNat : Int) - ('0'.toNat : Int)) * sign)).reverse ++ d := by
  induction cs with
  | nil => intro d; simp [bi_load_loop]
  | cons c cs ih => intro d; simp [bi_load_loop, ih, dl_ins]

theorem digit_cell (sign : Int) (hs : sign = 1 ∨ sign = -1) (c : Char) (hc : is_digit_char c) :
    wrap8 (((c.toNat : Int) - ('0'.toNat : Int)) * sign) = sign * digit_of c := by
  have h0 : '0'.toNat = 48 := by decide
  have h9 : '9'.toNat = 57 := by decide
  unfold is_digit_char at hc
  rw [h0, h9] at hc
  unfold digit_of
  rw [h0]
  rcases hs with rfl | rfl
  · rw [wrap8_of_range (by omega) (by omega)]; ring
  · rw [wrap8_of_range (by omega) (by omega)]; ring

theorem bi_load_digits (b : bigint_t) (pfx cs : List Char)
    (hp : pfx = [] ∨ pfx = ['+'] ∨ pfx = ['-']) (hne : cs ≠ [])
    (hd : ∀ c ∈ cs, is_digit_char c) :
    (bi_load b (pfx ++ cs)).data = (cs.map fun c => prefix_sign pfx * digit_of c).reverse := by
  have hmap : ∀ sign : Int, sign = 1 ∨ sign = -1 →
      (cs.map fun c => wrap8 (((c.toNat : Int) - ('0'.toNat : Int)) * sign))
        = cs.map fun c => sign * digit_of c := by
    intro sign hs
    apply List.map_congr_left
    intro c hc
    exact digit_cell sign hs c (hd c hc)
  rcases hp with rfl | rfl | rfl
  · cases cs with
    | nil => exact absurd rfl hne
    | cons c t =>
      have hc := hd c (by simp)
      have h1 : c ≠ '+' := by
        rintro rfl
        exact absurd hc (by decide)
      have h2 : c ≠ '-' := by
        rintro rfl
        exact absurd hc (by decide)
      simp only [bi_load, List.nil_append, List.head?_cons, Option.some.injEq, h1, h2, or_self,
        if_false, List.drop_zero, bi_load_loop_eq, dl_clear, List.append_nil, prefix_sign]
      rw [hmap 1 (Or.inl rfl)]
      simp
  · simp only [bi_load, List.singleton_append, List.head?_cons, true_or, if_true,
      List.drop_succ_cons, List.drop_zero, bi_load_loop_eq, dl_clear, List.append_nil,
      prefix_sign]
    rw [if_neg (by decide), hmap 1 (Or.inl rfl)]
    simp
  · simp only [bi_load, List.singleton_append, List.head?_cons, or_true, if_true,
      List.drop_succ_cons, List.drop_zero, bi_load_loop_eq, dl_clear, List.append_nil,
      prefix_sign]
    rw [hmap (-1) (Or.inr rfl)]

theorem hval_reverse_digits (sign : Int) (cs : List Char) : ∀ acc : Int,
    sign * cs.foldl (fun acc c => 10 * acc + digit_of c) acc
      = sign * acc * 10 ^ cs.length + hval (cs.map fun c => sign * digit_of c).reverse := by
  induction cs with
  | nil => intro acc; simp [hval]
  | cons c cs ih =>
    intro acc
    rw [List.foldl_cons, ih, List.map_cons, List.reverse_cons, hval_append]
    simp only [List.length_reverse, List.length_map, List.length_cons, hval, pow_succ]
    ring

/-- Claim C3: for a literal made of an optional leading `+` or `-` followed by
`n >= 1` decimal digit characters, and for every prior content of the BigInt,
`bi_load` leaves exactly `n` digits, little-endian: digit `i` is the sign times
the number of the `(n-i)`-th digit character (the sign is -1 exactly for a
leading `-`); the prior content is gone, leading zeros are kept, and the value
is the integer the literal denotes. -/
theorem bi_load_literal (b : bigint_t) (pfx cs : List Char)
    (hp : pfx = [] ∨ pfx = ['+'] ∨ pfx = ['-']) (hne : cs ≠ [])
    (hd : ∀ c ∈ cs, is_digit_char c) :
    (bi_load b (pfx ++ cs)).data.length = cs.length ∧
      (∀ i, i < cs.length → (bi_load b (pfx ++ cs)).data[i]?
        = (cs[cs.length - 1 - i]?).map fun c => prefix_sign pfx * digit_of c) ∧
      bi_load b (pfx ++ cs) = bi_load bi_init (pfx ++ cs) ∧
      value (bi_load b (pfx ++ cs)) = literal_int (prefix_sign pfx) cs := by
  have h := bi_load_digits b pfx cs hp hne hd
  have h0 := bi_load_digits bi_init pfx cs hp hne hd
  refine ⟨by simp [h], ?_, ?_, ?_⟩
  · intro i hi
    rw [h, List.getElem?_reverse (by simpa using hi)]
    simp
  · cases hb : bi_load b (pfx ++ cs) with
    | mk d1 =>
      cases hb0 : bi_load bi_init (pfx ++ cs) with
      | mk d2 =>
        rw [hb] at h
        rw [hb0] at h0
        simp only at h h0
        rw [h, h0]
  · rw [value_eq_hval, h, literal_int, hval_reverse_digits]
    simp

theorem bi_load_literal_witness :
    (bi_load ⟨[4, 2]⟩ (['-'] ++ "0120".toList)).data.length = "0120".toList.length ∧
      (∀ i, i < "0120".toList.length → (bi_load ⟨[4, 2]⟩ (['-'] ++ "0120".toList)).data[i]?
        = ("0120".toList["0120".toList.length - 1 - i]?).map
            fun c => prefix_sign ['-'] * digit_of c) ∧
      bi_load ⟨[4, 2]⟩ (['-'] ++ "0120".toList) = bi_load bi_init (['-'] ++ "0120".toList) ∧
      value (bi_load ⟨[4, 2]⟩ (['-'] ++ "0120".toList)) = literal_int (prefix_sign ['-']) "0120".toList :=
  bi_load_literal ⟨[4, 2]⟩ ['-'] "0120".toList (by decide) (by decide) (by decide)

/-! ## Operands of opposite sign -/

theorem bi_add_eval (fuel : Nat) (hf : 2 ≤ fuel) (a b : bigint_t)
    (ha : digits_ok a) (hb : digits_ok b) :
    bi_add fuel a b = some ⟨if a.data.length > b.data.length then add_lists a.data b.data
      else add_lists b.data a.data⟩ := by
  rw [bi_add_unfold]
  by_cases h : a.data.length > b.data.length
  · rw [if_pos h, if_pos h, bi_add_body_eq fuel hf a.data b.data ha hb (by omega)]
  · rw [if_neg h, if_neg h, bi_add_body_eq fuel hf b.data a.data hb ha (by omega)]

theorem bi_sub_eval (fuel : Nat) (hf : 2 ≤ fuel) (a b : bigint_t)
    (ha : digits_ok a) (hb : digits_ok b) :
    bi_sub fuel a b = some ⟨if a.data.length > b.data.length then add_lists a.data (negated b).data
      else add_lists (negated b).data a.data⟩ := by
  rw [bi_sub_unfold, negated_eq b hb, bi_add_eval fuel hf a (negated b) ha (negated_ok b hb)]
  simp [negated]

/-- The concrete cases of the specification that the code reproduces:
999 + 1, -5 + 3, -5 + 8 and 123 + 877, loaded from their literals, added and
printed, whatever fuel (at least 2) the carry loops are given. -/
theorem spec_cases_reproduced (fuel : Nat) :
    (bi_add (fuel + 2) (bi_load bi_init "999".toList) (bi_load bi_init "1".toList)).bind debug_print
        = some "1 0 0 0 \n" ∧
    (bi_add (fuel + 2) (bi_load bi_init "-5".toList) (bi_load bi_init "3".toList)).bind debug_print
        = some "- 2 \n" ∧
    (bi_add (fuel + 2) (bi_load bi_init "-5".toList) (bi_load bi_init "8".toList)).bind debug_print
        = some "3 \n" ∧
    (bi_add (fuel + 2) (bi_load bi_init "123".toList) (bi_load bi_init "877".toList)).bind debug_print
        = some "1 0 0 0 \n" := by
  refine ⟨?_, ?_, ?_, ?_⟩ <;>
    (rw [bi_add_eval (fuel + 2) (by omega) _ _ (by decide) (by decide)]; decide)

/-- Claim C4 at its failing input: 1000 - 1, loaded from the literals,
subtracted and printed, shows `1 0 0 1`, not the decimal rendering `9 9 9` of
999; the result's digits are -1, 0, 0, 1, whose value is 999. -/
theorem sub_1000_1_prints_1001 (fuel : Nat) :
    bi_sub (fuel + 2) (bi_load bi_init "1000".toList) (bi_load bi_init "1".toList)
        = some ⟨[-1, 0, 0, 1]⟩ ∧
      debug_print ⟨[-1, 0, 0, 1]⟩ = some "1 0 0 1 \n" ∧
      value ⟨[-1, 0, 0, 1]⟩ = 999 ∧
      spec_rendering (literal_int 1 "1000".toList - literal_int 1 "1".toList) = "9 9 9 \n" := by
  refine ⟨?_, by decide, by decide, by decide⟩
  rw [bi_sub_eval (fuel + 2) (by omega) _ _ (by decide) (by decide)]
  decide

/-- Claim C5 at its failing input: 10 - 10 on the canonical operand with
digits 0, 1 (and 10 + (-10) on canonical operands) returns the two digits
0, 0: a redundant most-significant zero that is not the single digit 0. -/
theorem sub_10_10_keeps_zero (fuel : Nat) :
    canonical ⟨[0, 1]⟩ ∧ canonical ⟨[0, -1]⟩ ∧
      bi_sub (fuel + 2) ⟨[0, 1]⟩ ⟨[0, 1]⟩ = some ⟨[0, 0]⟩ ∧
      bi_add (fuel + 2) ⟨[0, 1]⟩ ⟨[0, -1]⟩ = some ⟨[0, 0]⟩ ∧
      ¬ no_redundant_zero ⟨[0, 0]⟩ := by
  refine ⟨by decide, by decide, ?_, ?_, by decide⟩
  · rw [bi_sub_eval (fuel + 2) (by omega) _ _ (by decide) (by decide)]
    decide
  · rw [bi_add_eval (fuel + 2) (by omega) _ _ (by decide) (by decide)]
    decide

/-- Claim C6 at its failing input: 1000 - 1 on canonical operands (and
1000 + (-1)) returns the digits -1, 0, 0, 1 of value 999: a negative digit in a
result of positive value, so the nonzero digits do not share one sign. -/
theorem sub_1000_1_mixed_signs (fuel : Nat) :
    canonical ⟨[0, 0, 0, 1]⟩ ∧ canonical ⟨[1]⟩ ∧ canonical ⟨[-1]⟩ ∧
      bi_sub (fuel + 2) ⟨[0, 0, 0, 1]⟩ ⟨[1]⟩ = some ⟨[-1, 0, 0, 1]⟩ ∧
      bi_add (fuel + 2) ⟨[0, 0, 0, 1]⟩ ⟨[-1]⟩ = some ⟨[-1, 0, 0, 1]⟩ ∧
      ¬ uniform_sign ⟨[-1, 0, 0, 1]⟩ ∧ 0 < value ⟨[-1, 0, 0, 1]⟩ := by
  refine ⟨by decide, by decide, by decide, ?_, ?_, by decide, by decide⟩
  · rw [bi_sub_eval (fuel + 2) (by omega) _ _ (by decide) (by decide)]
    decide
  · rw [bi_add_eval (fuel + 2) (by omega) _ _ (by decide) (by decide)]
    decide

/-! ## `bi_add` on arbitrary cells -/

theorem wrap8_range (x : Int) : -128 ≤ wrap8 x ∧ wrap8 x ≤ 127 := by
  unfold wrap8; omega

theorem bi_add_body_tail (fuel : Nat) (l s : List Int) (hlen : s.length ≤ l.length) :
    bi_add_body fuel l s = bi_add_tail fuel (add_into (l ++ [0]) s) := by
  have h1 : bi_add_copy l l.length 0 bi_init.data = some l := by
    simpa [bi_init, dl_init] using bi_add_copy_eq l [] []
  have h2 : bi_add_accum s s.length 0 (l ++ [0]) = some (add_into (l ++ [0]) s) := by
    simpa using bi_add_accum_eq s [] [] (l ++ [0]) rfl (by simp; omega)
  unfold bi_add_body bi_add_tail
  simp only [h1, dl_add, h2, Option.bind_eq_bind, Option.some_bind]

theorem add_into_comm (l : List Int) : ∀ s, l.length = s.length → add_into l s = add_into s l := by
  induction l with
  | nil => intro s h; cases s <;> simp_all [add_into]
  | cons r rs ih =>
    intro s h
    cases s with
    | nil => simp at h
    | cons v vs =>
      simp only [add_into, ih vs (by simpa using h), add_comm r v]

theorem bi_add_body_comm (fuel : Nat) (l s : List Int) (h : l.length = s.length) :
    bi_add_body fuel l s = bi_add_body fuel s l := by
  rw [bi_add_body_tail fuel l s (by omega), bi_add_body_tail fuel s l (by omega),
    add_into_snoc l s (by omega) 0, add_into_snoc s l (by omega) 0, add_into_comm l s h]

theorem carry_up_returns (pre t : List Int) : ∀ (n fuel : Nat) (x y : Int), n < fuel →
    x ≤ 9 + 10 * (n : Int) → (-128 ≤ x ∧ x ≤ 127) → (-128 ≤ y ∧ y ≤ 127) →
    ∃ x' y', carry_up fuel (pre ++ x :: y :: t) pre.length = some (pre ++ x' :: y' :: t)
      ∧ (-128 ≤ x' ∧ x' ≤ 127) ∧ (-128 ≤ y' ∧ y' ≤ 127) := by
  intro n
  induction n with
  | zero =>
    intro fuel x y hf hx hxr hyr
    obtain ⟨f, rfl⟩ : ∃ f, fuel = f + 1 := ⟨fuel - 1, by omega⟩
    have h1 : ¬ (x > 9) := by omega
    exact ⟨x, y, by simp [carry_up, dl_get_append, h1], hxr, hyr⟩
  | succ n ih =>
    intro fuel x y hf hx hxr hyr
    obtain ⟨f, rfl⟩ : ∃ f, fuel = f + 1 := ⟨fuel - 1, by omega⟩
    by_cases h1 : x > 9
    · have w1 : wrap8 (x - 10) = x - 10 := wrap8_of_range (by omega) (by omega)
      obtain ⟨x', y', e, r1, r2⟩ := ih f (x - 10) (wrap8 (y + 1)) (by omega)
        (by push_cast at hx; omega) (by omega) (wrap8_range _)
      refine ⟨x', y', ?_, r1, r2⟩
      simp only [carry_up, dl_get_append, dl_put_append, dl_get_append_succ, dl_put_append_succ,
        h1, w1, Option.bind_eq_bind, Option.some_bind, if_true]
      exact e
    · exact ⟨x, y, by simp [carry_up, dl_get_append, h1], hxr, hyr⟩

theorem carry_down_returns (pre t : List Int) : ∀ (n fuel : Nat) (x y : Int), n < fuel →
    -x ≤ 9 + 10 * (n : Int) → (-128 ≤ x ∧ x ≤ 127) → (-128 ≤ y ∧ y ≤ 127) →
    ∃ x' y', carry_down fuel (pre ++ x :: y :: t) pre.length = some (pre ++ x' :: y' :: t)
      ∧ (-128 ≤ x' ∧ x' ≤ 127) ∧ (-128 ≤ y' ∧ y' ≤ 127) := by
  intro n
  induction n with
  | zero =>
    intro fuel x y hf hx hxr hyr
    obtain ⟨f, rfl⟩ : ∃ f, fuel = f + 1 := ⟨fuel - 1, by omega⟩
    have h1 : ¬ (x < -9) := by omega
    exact ⟨x, y, by simp [carry_down, dl_get_append, h1], hxr, hyr⟩
  | succ n ih =>
    intro fuel x y hf hx hxr hyr
    obtain ⟨f, rfl⟩ : ∃ f, fuel = f + 1 := ⟨fuel - 1, by omega⟩
    by_cases h1 : x < -9
    · have w1 : wrap8 (x + 10) = x + 10 := wrap8_of_range (by omega) (by omega)
      obtain ⟨x', y', e, r1, r2⟩ := ih f (x + 10) (wrap8 (y - 1)) (by omega)
        (by push_cast at hx; omega) (by omega) (wrap8_range _)
      refine ⟨x', y', ?_, r1, r2⟩
      simp only [carry_down, dl_get_append, dl_put_append, dl_get_append_succ,
        dl_put_append_succ, h1, w1, Option.bind_eq_bind, Option.some_bind, if_true]
      exact e
    · exact ⟨x, y, by simp [carry_down, dl_get_append, h1], hxr, hyr⟩

theorem bi_add_carry_returns (fuel : Nat) (hf : 13 ≤ fuel) (t : List Int) :
    ∀ (pre : List Int) (x : Int), (-128 ≤ x ∧ x ≤ 127) → (∀ d ∈ t, -128 ≤ d ∧ d ≤ 127) →
    ∃ r, bi_add_carry fuel t.length pre.length (pre ++ x :: t) = some (pre ++ r)
      ∧ r.length = t.length + 1 := by
  induction t with
  | nil => intro pre x _ _; exact ⟨[x], by simp [bi_add_carry], by simp⟩
  | cons y t ih =>
    intro pre x hx ht
    have hy := ht y (by simp)
    obtain ⟨x1, y1, e1, r1, s1⟩ := carry_up_returns pre t 12 fuel x y (by omega) (by omega) hx hy
    obtain ⟨x2, y2, e2, _, s2⟩ :=
      carry_down_returns pre t 12 fuel x1 y1 (by omega) (by omega) r1 s1
    obtain ⟨r, e3, hl⟩ := ih (pre ++ [x2]) y2 s2 (fun d hd => ht d (by simp [hd]))
    simp only [List.length_append, List.length_singleton, List.append_assoc,
      List.singleton_append] at e3
    refine ⟨x2 :: r, ?_, by simp [hl]⟩
    simp only [List.length_cons, bi_add_carry, e1, e2, e3, Option.bind_eq_bind,
      Option.some_bind]

theorem bi_add_tail_returns (fuel : Nat) (hf : 13 ≤ fuel) (res : List Int) (hne : res ≠ [])
    (hr : ∀ d ∈ res, -128 ≤ d ∧ d ≤ 127) : ∃ r, bi_add_tail fuel res = some r := by
  cases res with
  | nil => exact absurd rfl hne
  | cons x t =>
    obtain ⟨r, e, hl⟩ := bi_add_carry_returns fuel hf t [] x (hr x (by simp))
      (fun d hd => hr d (by simp [hd]))
    have e0 : (dlist_used (x :: t) - 1).toNat = t.length := by simp [dlist_used]
    have hne2 : r ≠ [] := by
      intro h; rw [h] at hl; simp at hl
    have e2 : bi_add_carry fuel t.length 0 (x :: t) = some r := by simpa using e
    unfold bi_add_tail
    rw [e0, e2]
    simp only [Option.bind_eq_bind, Option.some_bind]
    exact ⟨_, strip_last r hne2⟩

theorem bi_add_body_returns (fuel : Nat) (hf : 13 ≤ fuel) (l s : List Int)
    (hlen : s.length ≤ l.length) (hl : ∀ d ∈ l, -128 ≤ d ∧ d ≤ 127) :
    ∃ r, bi_add_body fuel l s = some r := by
  rw [bi_add_body_tail fuel l s hlen]
  apply bi_add_tail_returns fuel hf
  · intro h
    have := congrArg List.length h
    simp [add_into_length] at this
  · have key : ∀ (rs vs : List Int), (∀ d ∈ rs, -128 ≤ d ∧ d ≤ 127) →
        ∀ d ∈ add_into rs vs, -128 ≤ d ∧ d ≤ 127 := by
      intro rs
      induction rs with
      | nil => intro vs _ d hd; cases vs <;> simp [add_into] at hd
      | cons r rs ih =>
        intro vs h d hd
        cases vs with
        | nil => exact h d (by simpa [add_into] using hd)
        | cons v vs =>
          simp only [add_into, List.mem_cons] at hd
          rcases hd with rfl | hd
          · exact wrap8_range _
          · exact ih vs (fun d hd => h d (by simp [hd])) d hd
    apply key
    intro d hd
    rcases List.mem_append.1 hd with hd | hd
    · exact hl d hd
    · simp only [List.mem_singleton] at hd
      subst hd; omega

theorem bi_add_returns (fuel : Nat) (hf : 13 ≤ fuel) (a b : bigint_t)
    (ha : char_ok a) (hb : char_ok b) : ∃ r, bi_add fuel a b = some r := by
  rw [bi_add_unfold]
  by_cases h : a.data.length > b.data.length
  · rw [if_pos h]; exact bi_add_body_returns fuel hf _ _ (by omega) ha
  · rw [if_neg h]; exact bi_add_body_returns fuel hf _ _ (by omega) hb

/-! ## Identity, termination, operand order -/

theorem bi_load_zero (p : bigint_t) : bi_load p "0".toList = ⟨[0]⟩ := by
  have h := bi_load_digits p [] "0".toList (Or.inl rfl) (by decide) (by decide)
  cases hb : bi_load p "0".toList with
  | mk d =>
    have e : ([] : List Char) ++ "0".toList = "0".toList := rfl
    rw [e, hb] at h
    simp only at h
    rw [h]
    decide

/-- Claim C11 (identity): for every operand `a` with digits in `[-9, 9]` and
`z` loaded from the literal `0` (over any prior content), `bi_add a z` returns
and its result represents the same value as `a`. -/
theorem bi_add_zero_value (fuel : Nat) (hf : 2 ≤ fuel) (a p : bigint_t) (ha : digits_ok a) :
    ∃ r, bi_add fuel a (bi_load p "0".toList) = some r ∧ value r = value a := by
  rw [bi_load_zero]
  obtain ⟨r, h1, _, h3⟩ := bi_add_ok fuel hf a ⟨[0]⟩ ha (by decide)
  refine ⟨r, h1, ?_⟩
  rw [h3]
  have : value ⟨[0]⟩ = 0 := by decide
  rw [this, add_zero]

theorem bi_add_zero_value_witness :
    digits_ok ⟨[-4, 0, 9]⟩ ∧
      ∃ r, bi_add 2 ⟨[-4, 0, 9]⟩ (bi_load ⟨[7]⟩ "0".toList) = some r
        ∧ value r = value ⟨[-4, 0, 9]⟩ :=
  ⟨by decide, bi_add_zero_value 2 (by decide) ⟨[-4, 0, 9]⟩ ⟨[7]⟩ (by decide)⟩

/-- Claim C15: for operands with digits in `[-9, 9]`, of any lengths (zero
digits included), `bi_add` and `bi_sub` return a result: no indexed read or
write of an operand or of the result leaves its bounds (such an access makes
the model return `none`), and two tests of its condition are enough for every
run of either `while` loop of the carry pass. -/
theorem bi_add_sub_succeed (fuel : Nat) (hf : 2 ≤ fuel) (a b : bigint_t)
    (ha : digits_ok a) (hb : digits_ok b) :
    (∃ r, bi_add fuel a b = some r) ∧ (∃ r, bi_sub fuel a b = some r) := by
  obtain ⟨r, h1, _⟩ := bi_add_ok fuel hf a b ha hb
  obtain ⟨q, k1, _⟩ := bi_sub_ok fuel hf a b ha hb
  exact ⟨⟨r, h1⟩, ⟨q, k1⟩⟩

theorem bi_add_sub_succeed_witness :
    digits_ok ⟨[]⟩ ∧ digits_ok ⟨[9, 9, 9]⟩ ∧
      (∃ r, bi_add 2 ⟨[]⟩ ⟨[9, 9, 9]⟩ = some r) ∧ (∃ r, bi_sub 2 ⟨[]⟩ ⟨[9, 9, 9]⟩ = some r) :=
  ⟨by decide, by decide, bi_add_sub_succeed 2 (by decide) ⟨[]⟩ ⟨[9, 9, 9]⟩ (by decide) (by decide)⟩

/-- Claim C16: for all operands `a` and `b`, whatever their cells hold,
`bi_add a b` and `bi_add b a` give the same outcome, digit for digit; and when
the cells are in the range of `signed char` and each `while` loop may test its
condition 13 times, both calls return, so that outcome is a digit sequence. -/
theorem bi_add_comm_digits (fuel : Nat) (a b : bigint_t) :
    bi_add fuel a b = bi_add fuel b a ∧
      (13 ≤ fuel → char_ok a → char_ok b →
        ∃ r, bi_add fuel a b = some r ∧ bi_add fuel b a = some r) := by
  have e : bi_add fuel a b = bi_add fuel b a := by
    rw [bi_add_unfold, bi_add_unfold]
    by_cases h1 : a.data.length > b.data.length
    · rw [if_pos h1, if_neg (by omega)]
    · rw [if_neg h1]
      by_cases h2 : b.data.length > a.data.length
      · rw [if_pos h2]
      · rw [if_neg h2]
        exact bi_add_body_comm fuel _ _ (by omega)
  refine ⟨e, fun hf ha hb => ?_⟩
  obtain ⟨r, hr⟩ := bi_add_returns fuel hf a b ha hb
  exact ⟨r, hr, by rw [← e]; exact hr⟩

theorem bi_add_comm_digits_witness :
    char_ok ⟨[100, -128, 5]⟩ ∧ char_ok ⟨[90, -128, 127]⟩ ∧
      ∃ r, bi_add 13 ⟨[100, -128, 5]⟩ ⟨[90, -128, 127]⟩ = some r
        ∧ bi_add 13 ⟨[90, -128, 127]⟩ ⟨[100, -128, 5]⟩ = some r :=
  ⟨by decide, by decide,
    (bi_add_comm_digits 13 ⟨[100, -128, 5]⟩ ⟨[90, -128, 127]⟩).2 (by decide) (by decide)
      (by decide)⟩

/-! ## The text of `debug_print` -/

theorem join_cons (x : String) (xs : List String) :
    String.join (x :: xs) = x ++ String.join xs := by
  apply String.ext
  simp [String.data_join]

theorem debug_print_loop_eq (pre : List Int) : ∀ t : List Int,
    debug_print_loop (pre ++ t) pre.length = some (String.join (pre.reverse.map digit_text)) := by
  induction pre using List.reverseRecOn with
  | nil => intro t; simp [debug_print_loop, String.join]
  | append_singleton m x ih =>
    intro t
    have h := ih (x :: t)
    have e : (m ++ [x]).length = m.length + 1 := by simp
    rw [e, List.append_assoc, List.singleton_append]
    simp only [debug_print_loop, dl_get_append, h, Option.bind_eq_bind, Option.some_bind,
      List.reverse_append, List.reverse_singleton, List.singleton_append, List.map_cons,
      join_cons, digit_text, String.append_assoc]

theorem debug_print_eq (m : List Int) (c : Int) :
    debug_print ⟨m ++ [c]⟩ = some ((if c < 0 then "- " else "")
      ++ String.join ((m ++ [c]).reverse.map digit_text) ++ "\n") := by
  have h1 : dl_get (m ++ [c]) (dlist_used (m ++ [c]) - 1) = some c := by
    rw [dl_get_last _ (by simp)]; simp
  have h2 := debug_print_loop_eq (m ++ [c]) []
  rw [List.append_nil] at h2
  simp only [debug_print, h1, h2, Option.bind_eq_bind, Option.some_bind]

theorem nval_pos (l : List Nat) (hne : l ≠ []) (hl : l.getLast? ≠ some 0) : 0 < nval l := by
  induction l with
  | nil => exact absurd rfl hne
  | cons d t ih =>
    cases t with
    | nil =>
      have : d ≠ 0 := by
        intro h; apply hl; simp [h]
      simp only [nval]; omega
    | cons e es =>
      have := ih (by simp) (by simpa [List.getLast?_cons_cons] using hl)
      simp only [nval] at this ⊢; omega

theorem toDigitsCore_digits (ds : List Nat) : ∀ (d fuel : Nat) (acc : List Char), d < 10 →
    (∀ e ∈ ds, e < 10) → (ds ≠ [] → ds.getLast? ≠ some 0) → nval (d :: ds) < fuel →
    Nat.toDigitsCore 10 fuel (nval (d :: ds)) acc
      = ds.reverse.map Nat.digitChar ++ Nat.digitChar d :: acc := by
  induction ds with
  | nil =>
    intro d fuel acc hd _ _ hf
    obtain ⟨f, rfl⟩ : ∃ f, fuel = f + 1 := ⟨fuel - 1, by omega⟩
    have h1 : d % 10 = d := Nat.mod_eq_of_lt hd
    have h2 : d / 10 = 0 := Nat.div_eq_of_lt hd
    simp [Nat.toDigitsCore, nval, h1, h2]
  | cons e es ih =>
    intro d fuel acc hd hds hl hf
    obtain ⟨f, rfl⟩ : ∃ f, fuel = f + 1 := ⟨fuel - 1, by omega⟩
    have hpos : 0 < nval (e :: es) := nval_pos _ (by simp) (hl (by simp))
    have hn : nval (d :: e :: es) = d + 10 * nval (e :: es) := rfl
    have h1 : nval (d :: e :: es) % 10 = d := by rw [hn]; omega
    have h2 : nval (d :: e :: es) / 10 = nval (e :: es) := by rw [hn]; omega
    have h3 : nval (e :: es) ≠ 0 := by omega
    have hl2 : es ≠ [] → es.getLast? ≠ some 0 := by
      intro hne
      cases es with
      | nil => exact absurd rfl hne
      | cons x xs => simpa [List.getLast?_cons_cons] using hl (by simp)
    rw [Nat.toDigitsCore]
    simp only [h1, h2, h3, if_false]
    rw [ih e f (Nat.digitChar d :: acc) (hds e (by simp)) (fun x hx => hds x (by simp [hx])) hl2
      (by omega)]
    simp

theorem toDigits_digits (d : Nat) (ds : List Nat) (hd : d < 10) (hds : ∀ e ∈ ds, e < 10)
    (hl : ds ≠ [] → ds.getLast? ≠ some 0) :
    Nat.toDigits 10 (nval (d :: ds)) = (d :: ds).reverse.map Nat.digitChar := by
  unfold Nat.toDigits
  rw [toDigitsCore_digits ds d _ [] hd hds hl (by omega)]
  simp

theorem digit_text_lt (k : Nat) (hk : k < 10) :
    toString k ++ " " = String.singleton (Nat.digitChar k) ++ " " := by
  interval_cases k <;> rfl

theorem debug_print_nonempty (l : List Int) (hne : l ≠ []) :
    ∃ c, l.getLast? = some c ∧ debug_print ⟨l⟩ = some ((if c < 0 then "- " else "")
      ++ String.join (l.reverse.map digit_text) ++ "\n") := by
  rcases List.eq_nil_or_concat l with rfl | ⟨m, c, rfl⟩
  · exact absurd rfl hne
  · rw [List.concat_eq_append]
    exact ⟨c, by simp, debug_print_eq m c⟩

theorem hval_nonneg (l : List Int) (h : ∀ d ∈ l, 0 ≤ d) :
    hval l = (nval (l.map Int.natAbs) : Int) := by
  induction l with
  | nil => simp [hval, nval]
  | cons d t ih =>
    have hd := h d (by simp)
    have := ih (fun x hx => h x (by simp [hx]))
    simp only [hval, List.map_cons, nval, this, Nat.cast_add, Nat.cast_mul, Nat.cast_ofNat]
    omega

theorem hval_nonpos (l : List Int) (h : ∀ d ∈ l, d ≤ 0) :
    hval l = -(nval (l.map Int.natAbs) : Int) := by
  induction l with
  | nil => simp [hval, nval]
  | cons d t ih =>
    have hd := h d (by simp)
    have := ih (fun x hx => h x (by simp [hx]))
    simp only [hval, List.map_cons, nval, this, Nat.cast_add, Nat.cast_mul, Nat.cast_ofNat]
    omega

theorem getLast?_natAbs (l : List Int) (h : l.getLast? ≠ some 0) :
    (l.map Int.natAbs).getLast? ≠ some 0 := by
  rcases List.eq_nil_or_concat l with rfl | ⟨m, c, rfl⟩
  · simp
  · rw [List.concat_eq_append] at *
    have hc : c ≠ 0 := by
      intro e; apply h; simp [e]
    simp
    exact hc

/-- The digits a canonical BigInt prints are the decimal digits of the
absolute value it represents, and its value is negative exactly when its
most-significant digit is. -/
theorem canonical_digits (l : List Int) (h : canonical ⟨l⟩) :
    ∃ c, l.getLast? = some c ∧ (c < 0 ↔ hval l < 0) ∧
      Nat.toDigits 10 (hval l).natAbs = l.reverse.map (fun d => Nat.digitChar d.natAbs) := by
  obtain ⟨hd, hz, hs⟩ := h
  have hne : l ≠ [] := by
    rcases hz with h0 | ⟨h1, _⟩
    · simp only at h0; rw [h0]; simp
    · exact h1
  have hz2 : l = [0] ∨ l.getLast? ≠ some 0 := by
    rcases hz with h0 | ⟨_, h1⟩
    · exact Or.inl h0
    · exact Or.inr h1
  obtain ⟨c, hc⟩ : ∃ c, l.getLast? = some c := by
    rcases List.eq_nil_or_concat l with rfl | ⟨m, c, rfl⟩
    · exact absurd rfl hne
    · exact ⟨c, by simp⟩
  have hcm : c ∈ l := List.mem_of_getLast?_eq_some hc
  -- the digits as natural numbers
  have hnat : Nat.toDigits 10 (nval (l.map Int.natAbs))
      = l.reverse.map (fun d => Nat.digitChar d.natAbs) := by
    cases l with
    | nil => exact absurd rfl hne
    | cons d ds =>
      have hlt : ∀ x ∈ d :: ds, x.natAbs < 10 := by
        intro x hx
        have := hd x hx
        omega
      rw [List.map_cons, toDigits_digits d.natAbs (ds.map Int.natAbs) (hlt d (by simp))]
      · simp [List.map_reverse]
      · intro e he
        simp only [List.mem_map] at he
        obtain ⟨x, hx, rfl⟩ := he
        exact hlt x (by simp [hx])
      · intro hds
        have hds2 : ds ≠ [] := by
          intro e; apply hds; simp [e]
        apply getLast?_natAbs
        rcases hz2 with h0 | h1
        · simp only [List.cons.injEq] at h0
          exact absurd h0.2 hds2
        · cases ds with
          | nil => exact absurd rfl hds2
          | cons x xs => simpa [List.getLast?_cons_cons] using h1
  have hpos : l ≠ [0] → 0 < nval (l.map Int.natAbs) := by
    intro hn
    rcases hz2 with h0 | h1
    · exact absurd h0 hn
    · exact nval_pos _ (by simpa using hne) (getLast?_natAbs l h1)
  have hc0 : l ≠ [0] → c ≠ 0 := by
    intro hn e
    rcases hz2 with h0 | h1
    · exact hn h0
    · apply h1; rw [hc, e]
  rcases hs with hs | hs
  · have hv := hval_nonneg l hs
    have hcn := hs c hcm
    refine ⟨c, hc, ⟨fun h1 => by omega, fun h1 => by omega⟩, ?_⟩
    rw [hv, Int.natAbs_ofNat]
    exact hnat
  · have hv := hval_nonpos l hs
    have hcn := hs c hcm
    refine ⟨c, hc, ⟨fun h1 => ?_, fun h1 => ?_⟩, ?_⟩
    · have h2 : l ≠ [0] := by
        intro e; rw [e] at hc; simp at hc; omega
      have := hpos h2
      omega
    · have h2 : l ≠ [0] := by
        intro e; rw [e] at h1; simp [hval] at h1
      have := hc0 h2
      omega
    · rw [hv, Int.natAbs_neg, Int.natAbs_ofNat]
      exact hnat

/-- Claim C13: for every canonical BigInt, `debug_print` writes the sign
marker exactly when the most-significant digit is negative, which is exactly
when the value is negative, and then `abs` of each digit, most-significant
first; these are the decimal digits of the absolute value, so that the text is
the decimal rendering of the value. -/
theorem debug_print_canonical (b : bigint_t) (hb : canonical b) :
    ∃ msd, b.data.getLast? = some msd ∧ (msd < 0 ↔ value b < 0) ∧
      debug_print b = some ((if msd < 0 then "- " else "")
        ++ String.join (b.data.reverse.map digit_text) ++ "\n") ∧
      b.data.reverse.map (fun d => Nat.digitChar d.natAbs) = Nat.toDigits 10 (value b).natAbs ∧
      debug_print b = some (spec_rendering (value b)) := by
  cases b with
  | mk l =>
    obtain ⟨c, hc, hsign, hdig⟩ := canonical_digits l hb
    have hne : l ≠ [] := by
      intro e; rw [e] at hc; simp at hc
    obtain ⟨c2, hc2, hp⟩ := debug_print_nonempty l hne
    have e : c2 = c := by
      rw [hc] at hc2; exact (Option.some.inj hc2).symm
    subst e
    rw [value_eq_hval]
    refine ⟨c2, hc, hsign, hp, hdig.symm, ?_⟩
    rw [hp, spec_rendering, hdig, List.map_map]
    have hm : l.reverse.map digit_text
        = l.reverse.map ((fun ch => String.singleton ch ++ " ") ∘ fun d => Nat.digitChar d.natAbs) := by
      apply List.map_congr_left
      intro d hd
      have := hb.1 d (by simpa using hd)
      exact digit_text_lt d.natAbs (by omega)
    rw [hm]
    by_cases h : c2 < 0
    · rw [if_pos h, if_pos (hsign.1 h)]
    · rw [if_neg h, if_neg (fun h2 => h (hsign.2 h2))]

theorem debug_print_canonical_witness :
    canonical ⟨[0, -2, -1]⟩ ∧
    ∃ msd, (bigint_t.mk [0, -2, -1]).data.getLast? = some msd ∧ (msd < 0 ↔ value ⟨[0, -2, -1]⟩ < 0) ∧
      debug_print ⟨[0, -2, -1]⟩ = some ((if msd < 0 then "- " else "")
        ++ String.join ((bigint_t.mk [0, -2, -1]).data.reverse.map digit_text) ++ "\n") ∧
      (bigint_t.mk [0, -2, -1]).data.reverse.map (fun d => Nat.digitChar d.natAbs)
        = Nat.toDigits 10 (value ⟨[0, -2, -1]⟩).natAbs ∧
      debug_print ⟨[0, -2, -1]⟩ = some (spec_rendering (value ⟨[0, -2, -1]⟩)) :=
  ⟨by decide, debug_print_canonical ⟨[0, -2, -1]⟩ (by decide)⟩

theorem digitChar_of_char (c : Char) (hc : is_digit_char c) :
    Nat.digitChar (c.toNat - '0'.toNat) = c := by
  have h0 : '0'.toNat = 48 := by decide
  have h9 : '9'.toNat = 57 := by decide
  unfold is_digit_char at hc
  rw [h0, h9] at hc
  rw [h0]
  have e := Char.ofNat_toNat c
  generalize c.toNat = n at hc e
  obtain ⟨h1, h2⟩ := hc
  interval_cases n <;> (rw [← e]; decide)

theorem digit_text_of_char (sign : Int) (hs : sign = 1 ∨ sign = -1) (c : Char)
    (hc : is_digit_char c) : digit_text (sign * digit_of c) = String.singleton c ++ " " := by
  have h0 : '0'.toNat = 48 := by decide
  have h9 : '9'.toNat = 57 := by decide
  have hk : (sign * digit_of c).natAbs = c.toNat - '0'.toNat := by
    unfold is_digit_char at hc
    unfold digit_of
    rw [h0, h9] at hc
    rw [h0]
    rcases hs with rfl | rfl <;> omega
  have hlt : c.toNat - '0'.toNat < 10 := by
    unfold is_digit_char at hc
    rw [h0, h9] at hc
    rw [h0]; omega
  unfold digit_text
  rw [hk, digit_text_lt _ hlt, digitChar_of_char c hc]

/-- Claim C12 (round trip): for a literal made of an optional sign and one or
more decimal digits, `debug_print` after `bi_load` writes, after the sign
marker if the most-significant digit is negative, exactly the digit characters
of the literal in the order of the literal, each followed by a blank. -/
theorem print_load_round_trip (b : bigint_t) (pfx cs : List Char)
    (hp : pfx = [] ∨ pfx = ['+'] ∨ pfx = ['-']) (hne : cs ≠ [])
    (hd : ∀ c ∈ cs, is_digit_char c) :
    debug_print (bi_load b (pfx ++ cs))
      = some ((if prefix_sign pfx * digit_of (cs.headD '0') < 0 then "- " else "")
          ++ String.join (cs.map fun c => String.singleton c ++ " ") ++ "\n") := by
  have h := bi_load_digits b pfx cs hp hne hd
  have hs : prefix_sign pfx = 1 ∨ prefix_sign pfx = -1 := by
    rcases hp with rfl | rfl | rfl <;> decide
  cases hb : bi_load b (pfx ++ cs) with
  | mk l =>
    rw [hb] at h
    simp only at h
    have hne2 : l ≠ [] := by
      rw [h]; simpa using hne
    obtain ⟨c, hc, hpr⟩ := debug_print_nonempty l hne2
    have hrev : l.reverse = cs.map fun c => prefix_sign pfx * digit_of c := by
      rw [h, List.reverse_reverse]
    have hmsd : c = prefix_sign pfx * digit_of (cs.headD '0') := by
      cases cs with
      | nil => exact absurd rfl hne
      | cons x xs =>
        rw [h] at hc
        simp at hc
        simpa using hc.symm
    rw [hpr, hrev, List.map_map, hmsd]
    have hm : cs.map (digit_text ∘ fun c => prefix_sign pfx * digit_of c)
        = cs.map fun c => String.singleton c ++ " " := by
      apply List.map_congr_left
      intro x hx
      exact digit_text_of_char _ hs x (hd x hx)
    rw [hm]

theorem print_load_round_trip_witness :
    debug_print (bi_load ⟨[3]⟩ (['-'] ++ "0120".toList))
      = some ((if prefix_sign ['-'] * digit_of ("0120".toList.headD '0') < 0 then "- " else "")
          ++ String.join ("0120".toList.map fun c => String.singleton c ++ " ") ++ "\n") :=
  print_load_round_trip ⟨[3]⟩ ['-'] "0120".toList (by decide) (by decide) (by decide)

/-! ## Operands of one sign -/

theorem getLast?_cons_ne_nil (x : Int) (l : List Int) (h : l ≠ []) :
    (x :: l).getLast? = l.getLast? := by
  cases l with
  | nil => exact absurd rfl h
  | cons y t => simp [List.getLast?_cons_cons]

theorem add_into_signed (σ : Int) (hσ : σ = 1 ∨ σ = -1) (rs : List Int) : ∀ vs : List Int,
    (∀ d ∈ rs, 0 ≤ σ * d ∧ σ * d ≤ 9) → (∀ d ∈ vs, 0 ≤ σ * d ∧ σ * d ≤ 9) →
    vs.length ≤ rs.length →
    (∀ d ∈ add_into rs vs, 0 ≤ σ * d ∧ σ * d ≤ 18) ∧
      (∀ z, rs.getLast? = some z → ∃ w, (add_into rs vs).getLast? = some w ∧ σ * z ≤ σ * w) := by
  induction rs with
  | nil =>
    intro vs _ _ h
    cases vs with
    | nil => simp [add_into]
    | cons v vs => simp at h
  | cons r rs ih =>
    intro vs hr hv h
    cases vs with
    | nil =>
      refine ⟨?_, ?_⟩
      · intro d hd
        have := hr d (by simpa [add_into] using hd)
        omega
      · intro z hz
        exact ⟨z, by simpa [add_into] using hz, le_refl _⟩
    | cons v vs =>
      have h1 := hr r (by simp)
      have h2 := hv v (by simp)
      have hlen : vs.length ≤ rs.length := by simpa using h
      obtain ⟨i1, i2⟩ := ih vs (fun d hd => hr d (by simp [hd])) (fun d hd => hv d (by simp [hd]))
        hlen
      have w : wrap8 (r + v) = r + v := by
        rcases hσ with rfl | rfl <;> exact wrap8_of_range (by omega) (by omega)
      refine ⟨?_, ?_⟩
      · intro d hd
        simp only [add_into, w, List.mem_cons] at hd
        rcases hd with rfl | hd
        · rcases hσ with rfl | rfl <;> omega
        · exact i1 d hd
      · intro z hz
        simp only [add_into, w]
        cases rs with
        | nil =>
          have hvs : vs = [] := by
            cases vs with
            | nil => rfl
            | cons _ _ => simp at hlen
          subst hvs
          simp only [List.getLast?_singleton, Option.some.injEq] at hz
          subst hz
          refine ⟨r + v, by simp [add_into], ?_⟩
          rcases hσ with rfl | rfl <;> omega
        | cons r2 rs2 =>
          rw [getLast?_cons_ne_nil _ _ (by simp)] at hz
          obtain ⟨w2, hw2, hle⟩ := i2 z hz
          refine ⟨w2, ?_, hle⟩
          rw [getLast?_cons_ne_nil _ _ ?_]
          · exact hw2
          · intro e; rw [e] at hw2; simp at hw2

theorem ripple_from_signed (σ : Int) (hσ : σ = 1 ∨ σ = -1) (t : List Int) : ∀ x : Int,
    (0 ≤ σ * x ∧ σ * x ≤ 19) → (∀ d ∈ t, 0 ≤ σ * d ∧ σ * d ≤ 18) →
    ∃ m c, ripple_from x (t ++ [0]) = m ++ [c] ∧ (∀ d ∈ m, 0 ≤ σ * d ∧ σ * d ≤ 9)
      ∧ (c = 0 ∨ c = σ)
      ∧ (c = 0 → ∀ z, (x :: t).getLast? = some z → 1 ≤ σ * z →
          ∃ w, m.getLast? = some w ∧ 1 ≤ σ * w) := by
  induction t with
  | nil =>
    intro x hx _
    refine ⟨[(carry_step x 0).1], (carry_step x 0).2, by simp [ripple_from], ?_, ?_, ?_⟩
    · intro d hd
      simp only [List.mem_singleton] at hd
      subst hd
      unfold carry_step
      rcases hσ with rfl | rfl <;> split_ifs <;> dsimp only <;> omega
    · unfold carry_step
      rcases hσ with rfl | rfl <;> split_ifs <;> dsimp only <;> omega
    · intro hc z hz hz1
      simp only [List.getLast?_singleton, Option.some.injEq] at hz
      subst hz
      refine ⟨(carry_step x 0).1, by simp, ?_⟩
      revert hc
      unfold carry_step
      rcases hσ with rfl | rfl <;> split_ifs <;> dsimp only <;> intro hc <;> omega
  | cons y t ih =>
    intro x hx ht
    have hy := ht y (by simp)
    have hy2 : 0 ≤ σ * (carry_step x y).2 ∧ σ * (carry_step x y).2 ≤ 19
        ∧ σ * y ≤ σ * (carry_step x y).2 := by
      unfold carry_step
      rcases hσ with rfl | rfl <;> split_ifs <;> dsimp only <;> omega
    have hx2 : 0 ≤ σ * (carry_step x y).1 ∧ σ * (carry_step x y).1 ≤ 9 := by
      unfold carry_step
      rcases hσ with rfl | rfl <;> split_ifs <;> dsimp only <;> omega
    obtain ⟨m, c, e, hm, hc, hlast⟩ := ih (carry_step x y).2 ⟨hy2.1, hy2.2.1⟩
      (fun d hd => ht d (by simp [hd]))
    refine ⟨(carry_step x y).1 :: m, c, by simp [ripple_from, e], ?_, hc, ?_⟩
    · intro d hd
      simp only [List.mem_cons] at hd
      rcases hd with rfl | hd
      · exact hx2
      · exact hm d hd
    · intro hc0 z hz hz1
      rw [getLast?_cons_ne_nil _ _ (by simp)] at hz
      have hz' : ∃ z', ((carry_step x y).2 :: t).getLast? = some z' ∧ 1 ≤ σ * z' := by
        cases t with
        | nil =>
          simp only [List.getLast?_singleton, Option.some.injEq] at hz
          subst hz
          exact ⟨(carry_step x y).2, by simp, by omega⟩
        | cons e es =>
          rw [getLast?_cons_ne_nil _ _ (by simp)] at hz
          exact ⟨z, by rw [getLast?_cons_ne_nil _ _ (by simp)]; exact hz, hz1⟩
      obtain ⟨z', h1, h2⟩ := hz'
      obtain ⟨w, hw, hw1⟩ := hlast hc0 z' h1 h2
      refine ⟨w, ?_, hw1⟩
      rw [getLast?_cons_ne_nil _ _ ?_]
      · exact hw
      · intro e2; rw [e2] at hw; simp at hw

theorem add_lists_canonical (σ : Int) (hσ : σ = 1 ∨ σ = -1) (l s : List Int)
    (hl : canonical ⟨l⟩) (hs : canonical ⟨s⟩) (sl : ∀ d ∈ l, 0 ≤ σ * d)
    (ss : ∀ d ∈ s, 0 ≤ σ * d) (hlen : s.length ≤ l.length) :
    canonical ⟨add_lists l s⟩ := by
  have rl : ∀ d ∈ l, 0 ≤ σ * d ∧ σ * d ≤ 9 := by
    intro d hd
    have h1 := hl.1 d hd
    have h2 := sl d hd
    rcases hσ with rfl | rfl <;> omega
  have rs : ∀ d ∈ s, 0 ≤ σ * d ∧ σ * d ≤ 9 := by
    intro d hd
    have h1 := hs.1 d hd
    have h2 := ss d hd
    rcases hσ with rfl | rfl <;> omega
  have hlne : l ≠ [] := by
    rcases hl.2.1 with h0 | ⟨h1, _⟩
    · simp only at h0; rw [h0]; simp
    · exact h1
  have hsne : s ≠ [] := by
    rcases hs.2.1 with h0 | ⟨h1, _⟩
    · simp only at h0; rw [h0]; simp
    · exact h1
  obtain ⟨a18, alast⟩ := add_into_signed σ hσ l s rl rs hlen
  have hdig : cells_le 9 (add_lists l s) := add_lists_range l s hl.1 hs.1 hlen
  have hform : add_lists l s = strip (ripple (add_into l s ++ [0])) := by
    unfold add_lists; rw [add_into_snoc l s hlen 0]
  cases hr : add_into l s with
  | nil =>
    have := congrArg List.length hr
    rw [add_into_length] at this
    exact absurd (List.length_eq_zero.1 this) hlne
  | cons x t =>
    rw [hr] at a18 alast
    have hx := a18 x (by simp)
    obtain ⟨m, c, e, hm, hc, hlast⟩ := ripple_from_signed σ hσ t x ⟨hx.1, by omega⟩
      (fun d hd => a18 d (by simp [hd]))
    have e2 : ripple (x :: t ++ [0]) = m ++ [c] := by simpa [ripple] using e
    have hres : add_lists l s = if c = 0 then m else m ++ [c] := by
      rw [hform, hr, e2, strip_snoc]
    have hsign : uniform_sign ⟨add_lists l s⟩ := by
      have hall : ∀ d ∈ add_lists l s, 0 ≤ σ * d := by
        intro d hd
        rw [hres] at hd
        by_cases hc0 : c = 0
        · rw [if_pos hc0] at hd; exact (hm d hd).1
        · rw [if_neg hc0] at hd
          rcases List.mem_append.1 hd with hd | hd
          · exact (hm d hd).1
          · simp only [List.mem_singleton] at hd
            subst hd
            rcases hc with h | h
            · exact absurd h hc0
            · rcases hσ with rfl | rfl <;> omega
      rcases hσ with rfl | rfl
      · left; intro d hd; have := hall d hd; simp only at hd ⊢; omega
      · right; intro d hd; have := hall d hd; simp only at hd ⊢; omega
    refine ⟨hdig, ?_, hsign⟩
    unfold no_redundant_zero
    simp only
    rw [hres]
    by_cases hc0 : c = 0
    · rw [if_pos hc0]
      by_cases hl0 : l = [0]
      · -- the longer operand is the single digit 0, so both operands have one digit
        subst hl0
        cases s with
        | nil => exact absurd rfl hsne
        | cons v vs =>
          have hvs : vs = [] := by
            cases vs with
            | nil => rfl
            | cons _ _ => simp at hlen
          subst hvs
          have hv := hs.1 v (by simp)
          have w : wrap8 (0 + v) = v := by
            rw [zero_add]; exact wrap8_of_range (by omega) (by omega)
          simp only [add_into, w, List.cons.injEq] at hr
          obtain ⟨rfl, rfl⟩ := hr
          have hcs : carry_step v 0 = (v, 0) := by
            unfold carry_step
            rw [if_neg (by omega), if_neg (by omega)]
          have e3 : m ++ [c] = [v] ++ [0] := by
            rw [← e]; simp [ripple_from, hcs]
          have hm2 : m = [v] := (List.append_inj' e3 rfl).1
          rw [hm2]
          by_cases hv0 : v = 0
          · left; rw [hv0]
          · right; exact ⟨by simp, by simpa using hv0⟩
      · right
        obtain ⟨z, hz⟩ : ∃ z, l.getLast? = some z := by
          rcases List.eq_nil_or_concat l with rfl | ⟨p, z, rfl⟩
          · exact absurd rfl hlne
          · exact ⟨z, by simp⟩
        have hz0 : z ≠ 0 := by
          rcases hl.2.1 with h0 | ⟨_, h1⟩
          · exact absurd h0 hl0
          · intro e0; apply h1; simp only; rw [hz, e0]
        have hzs := sl z (List.mem_of_getLast?_eq_some hz)
        have hz1 : 1 ≤ σ * z := by
          rcases hσ with rfl | rfl <;> omega
        obtain ⟨w0, hw0, hle⟩ := alast z hz
        obtain ⟨w, hw, hw1⟩ := hlast hc0 w0 hw0 (by omega)
        refine ⟨?_, ?_⟩
        · intro e0; rw [e0] at hw; simp at hw
        · rw [hw]
          intro e0
          have := Option.some.inj e0
          subst this
          simp at hw1
    · rw [if_neg hc0]
      right
      exact ⟨by simp, by simpa using hc0⟩

/-- Claim C17: for canonical operands of one sign (all digits of both `>= 0`,
or all digits of both `<= 0`), `bi_add` returns a canonical result: digits in
`[-9, 9]`, all nonzero digits of one sign, and a nonzero most-significant digit
unless the result is the single digit 0. -/
theorem bi_add_same_sign_canonical (fuel : Nat) (hf : 2 ≤ fuel) (a b : bigint_t)
    (ha : canonical a) (hb : canonical b)
    (hs : ((∀ d ∈ a.data, 0 ≤ d) ∧ (∀ d ∈ b.data, 0 ≤ d))
      ∨ ((∀ d ∈ a.data, d ≤ 0) ∧ (∀ d ∈ b.data, d ≤ 0))) :
    ∃ r, bi_add fuel a b = some r ∧ canonical r := by
  obtain ⟨σ, hσ, sa, sb⟩ : ∃ σ : Int, (σ = 1 ∨ σ = -1) ∧ (∀ d ∈ a.data, 0 ≤ σ * d)
      ∧ (∀ d ∈ b.data, 0 ≤ σ * d) := by
    rcases hs with ⟨h1, h2⟩ | ⟨h1, h2⟩
    · exact ⟨1, Or.inl rfl, fun d hd => by have := h1 d hd; omega,
        fun d hd => by have := h2 d hd; omega⟩
    · exact ⟨-1, Or.inr rfl, fun d hd => by have := h1 d hd; omega,
        fun d hd => by have := h2 d hd; omega⟩
  rw [bi_add_eval fuel hf a b ha.1 hb.1]
  refine ⟨_, rfl, ?_⟩
  by_cases h : a.data.length > b.data.length
  · rw [if_pos h]
    exact add_lists_canonical σ hσ a.data b.data ha hb sa sb (by omega)
  · rw [if_neg h]
    exact add_lists_canonical σ hσ b.data a.data hb ha sb sa (by omega)

theorem bi_add_same_sign_canonical_witness :
    canonical ⟨[-9, -9, -9]⟩ ∧ canonical ⟨[-1]⟩ ∧
      ∃ r, bi_add 2 ⟨[-9, -9, -9]⟩ ⟨[-1]⟩ = some r ∧ canonical r :=
  ⟨by decide, by decide,
    bi_add_same_sign_canonical 2 (by decide) ⟨[-9, -9, -9]⟩ ⟨[-1]⟩ (by decide) (by decide)
      (by decide)⟩

/-! ## Cell width -/

theorem bi_add_accum_with_store8 (s : List Int) : ∀ (k i : Nat) (res : List Int),
    bi_add_accum_with store8 s k i res = bi_add_accum s k i res := by
  intro k
  induction k with
  | zero => intro i res; rfl
  | succ k ih =>
    intro i res
    simp only [bi_add_accum_with, bi_add_accum, store8, ih, Option.bind_eq_bind,
      Option.some_bind]

theorem carry_up_with_store8 : ∀ (fuel : Nat) (res : List Int) (i : Nat),
    carry_up_with store8 fuel res i = carry_up fuel res i := by
  intro fuel
  induction fuel with
  | zero => intro res i; rfl
  | succ f ih =>
    intro res i
    simp only [carry_up_with, carry_up, store8, ih, Option.bind_eq_bind, Option.some_bind]

theorem carry_down_with_store8 : ∀ (fuel : Nat) (res : List Int) (i : Nat),
    carry_down_with store8 fuel res i = carry_down fuel res i := by
  intro fuel
  induction fuel with
  | zero => intro res i; rfl
  | succ f ih =>
    intro res i
    simp only [carry_down_with, carry_down, store8, ih, Option.bind_eq_bind, Option.some_bind]

theorem bi_add_carry_with_store8 (fuel : Nat) : ∀ (k i : Nat) (res : List Int),
    bi_add_carry_with store8 fuel k i res = bi_add_carry fuel k i res := by
  intro k
  induction k with
  | zero => intro i res; rfl
  | succ k ih =>
    intro i res
    simp only [bi_add_carry_with, bi_add_carry, carry_up_with_store8, carry_down_with_store8, ih]

theorem bi_add_with_store8 (fuel : Nat) (a b : bigint_t) :
    bi_add_with store8 fuel a b = bi_add fuel a b := by
  simp only [bi_add_with, bi_add, bi_add_accum_with_store8, bi_add_carry_with_store8]

theorem bi_add_accum_with_eq (store : Int → Option Int)
    (hst : ∀ x : Int, -19 ≤ x → x ≤ 19 → store x = some x) (srest : List Int) :
    ∀ (spre pre rest : List Int), spre.length = pre.length → srest.length ≤ rest.length →
    cells_le 9 rest → cells_le 9 srest →
    bi_add_accum_with store (spre ++ srest) srest.length pre.length (pre ++ rest)
      = some (pre ++ add_into rest srest) := by
  induction srest with
  | nil => intro spre pre rest _ _ _ _; cases rest <;> simp [bi_add_accum_with, add_into]
  | cons v vs ih =>
    intro spre pre rest hlen hle hr hs
    cases rest with
    | nil => simp at hle
    | cons r rs =>
      have hle2 : vs.length ≤ rs.length := by simpa using hle
      have h1 := hr r (by simp)
      have h2 := hs v (by simp)
      have w : wrap8 (r + v) = r + v := wrap8_of_range (by omega) (by omega)
      have h := ih (spre ++ [v]) (pre ++ [r + v]) rs (by simp [hlen]) hle2
        (fun d hd => hr d (by simp [hd])) (fun d hd => hs d (by simp [hd]))
      simp only [List.length_append, List.length_singleton, List.append_assoc,
        List.singleton_append] at h
      have hg : dl_get (spre ++ v :: vs) (pre.length : Int) = some v := by
        rw [← hlen]; exact dl_get_append spre v vs
      simp only [List.length_cons, bi_add_accum_with, dl_get_append, hg,
        hst (r + v) (by omega) (by omega), dl_put_append, add_into, w, Option.bind_eq_bind,
        Option.some_bind]
      exact h

theorem carry_at_with (store : Int → Option Int)
    (hst : ∀ x : Int, -19 ≤ x → x ≤ 19 → store x = some x)
    (fuel : Nat) (hf : 2 ≤ fuel) (pre : List Int) (x y : Int) (t : List Int)
    (hx : -19 ≤ x ∧ x ≤ 19) (hy : -18 ≤ y ∧ y ≤ 18) :
    (carry_up_with store fuel (pre ++ x :: y :: t) pre.length).bind
        (fun r => carry_down_with store fuel r pre.length)
      = some (pre ++ (carry_step x y).1 :: (carry_step x y).2 :: t) := by
  obtain ⟨f, rfl⟩ : ∃ f, fuel = f + 2 := ⟨fuel - 2, by omega⟩
  by_cases h1 : x > 9
  · have w1 := hst (x - 10) (by omega) (by omega)
    have w2 := hst (y + 1) (by omega) (by omega)
    have h2 : ¬ (x - 10 > 9) := by omega
    have h3 : ¬ (x - 10 < -9) := by omega
    simp [carry_up_with, carry_down_with, carry_step, dl_get_append, dl_put_append,
      dl_get_append_succ, dl_put_append_succ, h1, h2, h3, w1, w2]
  · by_cases h4 : x < -9
    · have w1 := hst (x + 10) (by omega) (by omega)
      have w2 := hst (y - 1) (by omega) (by omega)
      have h2 : ¬ (x + 10 < -9) := by omega
      simp [carry_up_with, carry_down_with, carry_step, dl_get_append, dl_put_append,
        dl_get_append_succ, dl_put_append_succ, h1, h2, h4, w1, w2]
    · simp [carry_up_with, carry_down_with, carry_step, dl_get_append, h1, h4]

theorem bi_add_carry_with_eq (store : Int → Option Int)
    (hst : ∀ x : Int, -19 ≤ x → x ≤ 19 → store x = some x)
    (fuel : Nat) (hf : 2 ≤ fuel) (t : List Int) :
    ∀ (pre : List Int) (x : Int), -19 ≤ x ∧ x ≤ 19 → cells_le 18 t →
    bi_add_carry_with store fuel t.length pre.length (pre ++ x :: t)
      = some (pre ++ ripple_from x t) := by
  induction t with
  | nil => intro pre x _ _; simp [bi_add_carry_with, ripple_from]
  | cons y t ih =>
    intro pre x hx ht
    have hy : -18 ≤ y ∧ y ≤ 18 := ht y (by simp)
    have ht2 : cells_le 18 t := fun d hd => ht d (by simp [hd])
    have hs := carry_step_snd x y
    have hc := carry_at_with store hst fuel hf pre x y t hx hy
    have h := ih (pre ++ [(carry_step x y).1]) (carry_step x y).2 (by omega) ht2
    simp only [List.length_append, List.length_singleton, List.append_assoc,
      List.singleton_append] at h
    rw [Option.bind_eq_some] at hc
    obtain ⟨r1, hr1, hr2⟩ := hc
    simp only [List.length_cons, bi_add_carry_with, ripple_from]
    simp only [hr1, hr2, h, Option.bind_eq_bind, Option.some_bind]

theorem bi_add_with_eval (store : Int → Option Int)
    (hst : ∀ x : Int, -19 ≤ x → x ≤ 19 → store x = some x)
    (fuel : Nat) (hf : 2 ≤ fuel) (a b : bigint_t) (ha : digits_ok a) (hb : digits_ok b) :
    bi_add_with store fuel a b = bi_add fuel a b := by
  have key : ∀ l s : List Int, cells_le 9 l → cells_le 9 s → s.length ≤ l.length →
      (do
        let res ← bi_add_copy l l.length 0 bi_init.data
        let res := dl_add res 0
        let res ← bi_add_accum_with store s s.length 0 res
        let res ← bi_add_carry_with store fuel (dlist_used res - 1).toNat 0 res
        let last ← dl_get res (dlist_used res - 1)
        if last = 0 then
          some (bigint_t.mk (dl_rem res (dlist_used res - 1).toNat))
        else
          some (bigint_t.mk res)) = bi_add_body fuel l s := by
    intro l s hl hs hlen
    have h0 : cells_le 9 (l ++ [0]) := by
      intro d hd
      rcases List.mem_append.1 hd with hd | hd
      · exact hl d hd
      · simp only [List.mem_singleton] at hd
        subst hd; omega
    have h1 : bi_add_copy l l.length 0 bi_init.data = some l := by
      simpa [bi_init, dl_init] using bi_add_copy_eq l [] []
    have h2 : bi_add_accum_with store s s.length 0 (l ++ [0]) = some (add_into (l ++ [0]) s) := by
      simpa using bi_add_accum_with_eq store hst s [] [] (l ++ [0]) rfl (by simp; omega) h0 hs
    have h2' : bi_add_accum s s.length 0 (l ++ [0]) = some (add_into (l ++ [0]) s) := by
      simpa using bi_add_accum_eq s [] [] (l ++ [0]) rfl (by simp; omega)
    have h3 : cells_le 18 (add_into (l ++ [0]) s) := by
      rw [add_into_snoc l s hlen 0]
      intro d hd
      rcases List.mem_append.1 hd with hd | hd
      · exact (add_into_range l s hl hs hlen).1 d hd
      · simp only [List.mem_singleton] at hd
        subst hd; omega
    have h4 : bi_add_carry_with store fuel (dlist_used (add_into (l ++ [0]) s) - 1).toNat 0
        (add_into (l ++ [0]) s) = some (ripple (add_into (l ++ [0]) s)) := by
      cases hr : add_into (l ++ [0]) s with
      | nil => simp [bi_add_carry_with, ripple, dlist_used]
      | cons x t =>
        rw [hr] at h3
        have e : (dlist_used (x :: t) - 1).toNat = t.length := by simp [dlist_used]
        have hx := h3 x (by simp)
        have h := bi_add_carry_with_eq store hst fuel hf t [] x (by omega)
          (fun d hd => h3 d (by simp [hd]))
        rw [e]
        simpa [ripple] using h
    have h4' := carry_all fuel hf _ h3
    unfold bi_add_body
    simp only [h1, dl_add, h2, h2', h4, h4', Option.bind_eq_bind, Option.some_bind]
  rw [bi_add_unfold]
  unfold bi_add_with dlist_used
  by_cases h : a.data.length > b.data.length
  · have h2 : (a.data.length : Int) > (b.data.length : Int) := by omega
    simp only [h, h2, if_true]
    exact key a.data b.data ha hb (by omega)
  · have h2 : ¬ (a.data.length : Int) > (b.data.length : Int) := by omega
    simp only [h, h2, if_false]
    exact key b.data a.data hb ha (by omega)

theorem add_lists_shape (l s : List Int) (hl : cells_le 9 l) (hs : cells_le 9 s)
    (hlen : s.length ≤ l.length) :
    (add_lists l s).length = l.length ∨
      ((add_lists l s).length = l.length + 1 ∧
        ((add_lists l s).getLast? = some 1 ∨ (add_lists l s).getLast? = some (-1))) := by
  unfold add_lists
  rw [add_into_snoc l s hlen 0]
  have h18 := (add_into_range l s hl hs hlen).1
  have hlen2 := add_into_length l s
  cases hr : add_into l s with
  | nil =>
    rw [hr] at hlen2
    have e : strip (ripple ([] ++ [(0 : Int)])) = [] := by decide
    rw [e]
    left
    simpa using hlen2
  | cons x t =>
    rw [hr] at h18 hlen2
    have hx := h18 x (by simp)
    obtain ⟨m, c, e, hm, _, hc1, hc2⟩ := ripple_from_snoc t x (by omega)
      (fun d hd => h18 d (by simp [hd]))
    have e2 : ripple (x :: t ++ [0]) = m ++ [c] := by simpa [ripple] using e
    have hml : m.length = l.length := by
      rw [hm, ← hlen2]; simp
    rw [e2, strip_snoc]
    by_cases hc : c = 0
    · left; rw [if_pos hc]; exact hml
    · right
      rw [if_neg hc]
      refine ⟨by simp [hml], ?_⟩
      have : c = 1 ∨ c = -1 := by omega
      rcases this with rfl | rfl
      · left; simp
      · right; simp

/-- Claim C18: for operands with digits in `[-9, 9]`, `bi_add` returns the same
result with `signed char` cells (the source), with cells that refuse every
stored value outside `[-19, 19]`, and with cells of unbounded integers: every
value stored in a cell lies in `[-19, 19]`, and no 8-bit cell overflows.  The
sentinel cell ends as 0 and is removed, or as 1 or -1 and is the result's last
digit. -/
theorem bi_add_cell_width (fuel : Nat) (hf : 2 ≤ fuel) (a b : bigint_t)
    (ha : digits_ok a) (hb : digits_ok b) :
    ∃ r, bi_add fuel a b = some r ∧ bi_add_with store8 fuel a b = some r
      ∧ bi_add_with store_19 fuel a b = some r ∧ bi_add_with store_int fuel a b = some r
      ∧ (r.data.length = max a.data.length b.data.length ∨
          (r.data.length = max a.data.length b.data.length + 1 ∧
            (r.data.getLast? = some 1 ∨ r.data.getLast? = some (-1)))) := by
  have h19 : ∀ x : Int, -19 ≤ x → x ≤ 19 → store_19 x = some x := by
    intro x h1 h2
    unfold store_19
    rw [if_pos ⟨h1, h2⟩]
  have hint : ∀ x : Int, -19 ≤ x → x ≤ 19 → store_int x = some x := fun _ _ _ => rfl
  have e := bi_add_eval fuel hf a b ha hb
  refine ⟨_, e, ?_, ?_, ?_, ?_⟩
  · rw [bi_add_with_store8]; exact e
  · rw [bi_add_with_eval store_19 h19 fuel hf a b ha hb]; exact e
  · rw [bi_add_with_eval store_int hint fuel hf a b ha hb]; exact e
  · by_cases h : a.data.length > b.data.length
    · simp only [if_pos h]
      rw [max_eq_left (by omega)]
      exact add_lists_shape _ _ ha hb (by omega)
    · simp only [if_neg h]
      rw [max_eq_right (by omega)]
      exact add_lists_shape _ _ hb ha (by omega)

theorem bi_add_cell_width_witness :
    digits_ok ⟨[9, 9, 9]⟩ ∧ digits_ok ⟨[9, 9]⟩ ∧
    ∃ r, bi_add 2 ⟨[9, 9, 9]⟩ ⟨[9, 9]⟩ = some r ∧ bi_add_with store8 2 ⟨[9, 9, 9]⟩ ⟨[9, 9]⟩ = some r
      ∧ bi_add_with store_19 2 ⟨[9, 9, 9]⟩ ⟨[9, 9]⟩ = some r
      ∧ bi_add_with store_int 2 ⟨[9, 9, 9]⟩ ⟨[9, 9]⟩ = some r
      ∧ (r.data.length = max (bigint_t.mk [9, 9, 9]).data.length (bigint_t.mk [9, 9]).data.length ∨
          (r.data.length
              = max (bigint_t.mk [9, 9, 9]).data.length (bigint_t.mk [9, 9]).data.length + 1 ∧
            (r.data.getLast? = some 1 ∨ r.data.getLast? = some (-1)))) :=
  ⟨by decide, by decide,
    bi_add_cell_width 2 (by decide) ⟨[9, 9, 9]⟩ ⟨[9, 9]⟩ (by decide) (by decide)⟩

/-! ## The heap -/

theorem h_read_last (h0 : heap_t) (rd : dlist_t) :
    h_read (h0 ++ [some rd]) h0.length = some rd := by
  simp [h_read]

theorem h_read_append (h0 x : heap_t) (p : Nat) (d : dlist_t) (h : h_read h0 p = some d) :
    h_read (h0 ++ x) p = some d := by
  unfold h_read at h ⊢
  have hp : p < h0.length := by
    by_contra hn
    rw [List.getElem?_eq_none (by omega)] at h
    simp at h
  rw [List.getElem?_append_left hp]
  exact h

theorem h_write_last (h0 : heap_t) (rd d : dlist_t) :
    h_write (h0 ++ [some rd]) h0.length d = some (h0 ++ [some d]) := by
  simp [h_write, h_read_last]

theorem bi_add_copy_h_eq (h0 : heap_t) (l : Nat) (lrest : List Int) :
    ∀ (lpre rd : List Int), h_read h0 l = some (lpre ++ lrest) →
    bi_add_copy_h l h0.length lrest.length lpre.length (h0 ++ [some rd])
      = some (h0 ++ [some (rd ++ lrest)]) := by
  induction lrest with
  | nil =>
    intro lpre rd hl
    have hl2 := h_read_append h0 [some rd] l _ hl
    simp [bi_add_copy_h, hl2, dlist_used]
  | cons x t ih =>
    intro lpre rd hl
    have hl2 := h_read_append h0 [some rd] l _ hl
    have hlt : (lpre.length : Int) < dlist_used (lpre ++ x :: t) := by
      simp [dlist_used]
    have h := ih (lpre ++ [x]) (rd ++ [x]) (by simpa using hl)
    simp only [List.length_append, List.length_singleton, List.append_assoc,
      List.singleton_append] at h
    simp only [List.length_cons, bi_add_copy_h, hl2, hlt, if_true, dl_get_append, h_read_last,
      dl_add, h_write_last, Option.bind_eq_bind, Option.some_bind]
    exact h

theorem bi_add_accum_h_eq (h0 : heap_t) (s : Nat) (srest : List Int) :
    ∀ (spre pre rest : List Int), h_read h0 s = some (spre ++ srest) →
    spre.length = pre.length → srest.length ≤ rest.length →
    bi_add_accum_h s h0.length srest.length pre.length (h0 ++ [some (pre ++ rest)])
      = some (h0 ++ [some (pre ++ add_into rest srest)]) := by
  induction srest with
  | nil =>
    intro spre pre rest hs hlen _
    have hs2 := h_read_append h0 [some (pre ++ rest)] s _ hs
    have e : add_into rest [] = rest := by cases rest <;> rfl
    simp [bi_add_accum_h, hs2, dlist_used, hlen, e]
  | cons v vs ih =>
    intro spre pre rest hs hlen hle
    cases rest with
    | nil => simp at hle
    | cons r rs =>
      have hs2 := h_read_append h0 [some (pre ++ r :: rs)] s _ hs
      have hlt : (pre.length : Int) < dlist_used (spre ++ v :: vs) := by
        simp [dlist_used]; omega
      have hg : dl_get (spre ++ v :: vs) (pre.length : Int) = some v := by
        rw [← hlen]; exact dl_get_append spre v vs
      have h := ih (spre ++ [v]) (pre ++ [wrap8 (r + v)]) rs (by simpa using hs) (by simp [hlen])
        (by simpa using hle)
      simp only [List.length_append, List.length_singleton, List.append_assoc,
        List.singleton_append] at h
      simp only [List.length_cons, bi_add_accum_h, hs2, hlt, if_true, dl_get_append, hg,
        h_read_last, dl_put_append, h_write_last, add_into, Option.bind_eq_bind,
        Option.some_bind]
      exact h

theorem bi_sub_inv_h_eq (h0 : heap_t) (op : Nat) (orest : List Int) :
    ∀ (opre inv : List Int), h_read h0 op = some (opre ++ orest) → inv.length = opre.length →
    bi_sub_inv_h op h0.length orest.length opre.length (h0 ++ [some inv])
      = some (h0 ++ [some (inv ++ orest.map fun v => wrap8 (v * -1))]) := by
  induction orest with
  | nil =>
    intro opre inv ho _
    have ho2 := h_read_append h0 [some inv] op _ ho
    simp [bi_sub_inv_h, ho2, dlist_used]
  | cons x t ih =>
    intro opre inv ho hlen
    have ho2 := h_read_append h0 [some inv] op _ ho
    have hlt : (opre.length : Int) < dlist_used (opre ++ x :: t) := by
      simp [dlist_used]
    have hg : dl_get (inv ++ [x]) (opre.length : Int) = some x := by
      rw [← hlen]; exact dl_get_append inv x []
    have hp : dl_put (inv ++ [x]) (opre.length : Int) (wrap8 (x * -1))
        = some (inv ++ [wrap8 (x * -1)]) := by
      rw [← hlen]; exact dl_put_append inv x _ []
    have h := ih (opre ++ [x]) (inv ++ [wrap8 (x * -1)]) (by simpa using ho) (by simp [hlen])
    simp only [List.length_append, List.length_singleton, List.append_assoc,
      List.singleton_append] at h
    simp only [List.length_cons, bi_sub_inv_h, ho2, hlt, if_true, dl_get_append, h_read_last,
      dl_add, h_write_last, hg, hp, Option.bind_eq_bind, Option.some_bind]
    simpa using h

theorem bi_add_h_body (fuel : Nat) (h : heap_t) (l s : Nat) (ld sd : List Int)
    (hl : h_read h l = some ld) (hs : h_read h s = some sd) (hlen : sd.length ≤ ld.length) :
    (do
      let ld' ← h_read (h ++ [some dl_init]) l
      let h1 ← bi_add_copy_h l h.length ld'.length 0 (h ++ [some dl_init])
      let rd ← h_read h1 h.length
      let h2 ← h_write h1 h.length (dl_add rd 0)
      let sd' ← h_read h2 s
      let h3 ← bi_add_accum_h s h.length sd'.length 0 h2
      let rd ← h_read h3 h.length
      let r ← bi_add_tail fuel rd
      let h4 ← h_write h3 h.length r.data
      some (h4, h.length))
      = (bi_add_body fuel ld sd).map (fun r => (h ++ [some r.data], h.length)) := by
  have h1 := h_read_append h [some dl_init] l ld hl
  have h2 : bi_add_copy_h l h.length ld.length 0 (h ++ [some dl_init]) = some (h ++ [some ld]) := by
    simpa [dl_init] using bi_add_copy_h_eq h l ld [] [] (by simpa using hl)
  have h3 := h_read_append h [some (ld ++ [0])] s sd hs
  have h4 : bi_add_accum_h s h.length sd.length 0 (h ++ [some (ld ++ [0])])
      = some (h ++ [some (add_into (ld ++ [0]) sd)]) := by
    simpa using bi_add_accum_h_eq h s sd [] [] (ld ++ [0]) (by simpa using hs) rfl
      (by simp; omega)
  rw [bi_add_body_tail fuel ld sd hlen]
  simp only [h1, h2, h_read_last, dl_add, h_write_last, h3, h4, Option.bind_eq_bind,
    Option.some_bind]
  cases bi_add_tail fuel (add_into (ld ++ [0]) sd) with
  | none => rfl
  | some r => simp [h_write_last]

theorem bi_add_h_eq (fuel : Nat) (h : heap_t) (pa pb : Nat) (a b : List Int)
    (ha : h_read h pa = some a) (hb : h_read h pb = some b) :
    bi_add_h fuel h pa pb
      = (bi_add fuel ⟨a⟩ ⟨b⟩).map (fun r => (h ++ [some r.data], h.length)) := by
  rw [bi_add_unfold]
  unfold bi_add_h h_bi_init
  simp only [ha, hb, Option.bind_eq_bind, Option.some_bind, dlist_used]
  by_cases hc : a.length > b.length
  · have hc2 : (a.length : Int) > (b.length : Int) := by omega
    simp only [hc, hc2, if_true]
    exact bi_add_h_body fuel h pa pb a b ha hb (by omega)
  · have hc2 : ¬ (a.length : Int) > (b.length : Int) := by omega
    simp only [hc, hc2, if_false]
    exact bi_add_h_body fuel h pb pa b a hb ha (by omega)

theorem h_bi_free_mid (h0 : heap_t) (d r : dlist_t) :
    h_bi_free (h0 ++ [some d, some r]) h0.length = some (h0 ++ [none, some r]) := by
  have e : h_read (h0 ++ [some d, some r]) h0.length = some d := by
    have := h_read_append (h0 ++ [some d]) [some r] h0.length d (h_read_last h0 d)
    simpa using this
  unfold h_bi_free
  rw [e]
  simp

theorem bi_sub_h_eq (fuel : Nat) (h : heap_t) (pa pb : Nat) (a b : List Int)
    (ha : h_read h pa = some a) (hb : h_read h pb = some b) :
    bi_sub_h fuel h pa pb
      = (bi_sub fuel ⟨a⟩ ⟨b⟩).map (fun r => (h ++ [none, some r.data], h.length + 1)) := by
  have h1 := h_read_append h [some dl_init] pb b hb
  have h2 : bi_sub_inv_h pb h.length b.length 0 (h ++ [some dl_init])
      = some (h ++ [some (b.map fun v => wrap8 (v * -1))]) := by
    simpa [dl_init] using bi_sub_inv_h_eq h pb b [] [] (by simpa using hb) rfl
  have h3 := bi_add_h_eq fuel (h ++ [some (b.map fun v => wrap8 (v * -1))]) pa h.length a _
    (h_read_append h _ pa a ha) (h_read_last h _)
  rw [bi_sub_unfold]
  unfold bi_sub_h h_bi_init
  simp only [h1, h2, h3, Option.bind_eq_bind, Option.some_bind]
  cases bi_add fuel ⟨a⟩ ⟨b.map fun v => wrap8 (v * -1)⟩ with
  | none => rfl
  | some r => simp [h_bi_free_mid]

theorem bi_sub_returns (fuel : Nat) (hf : 13 ≤ fuel) (a b : bigint_t)
    (ha : char_ok a) : ∃ r, bi_sub fuel a b = some r := by
  rw [bi_sub_unfold]
  apply bi_add_returns fuel hf _ _ ha
  intro d hd
  simp only [List.mem_map] at hd
  obtain ⟨v, _, rfl⟩ := hd
  exact wrap8_range _

/-- Claim C14 (no operand mutation): whenever `bi_add` or `bi_sub` on the
operands at the addresses `pa` and `pb` returns, the digit sequences of both
operands, and every other sequence the heap held, are as before; the result
(and the negated copy of `bi_sub`) are at addresses the heap did not have.
With cells in the range of `signed char` and 13 tests per `while` loop, both
functions return. -/
theorem operands_unchanged (fuel : Nat) (h : heap_t) (pa pb : Nat) (a b : dlist_t)
    (ha : h_read h pa = some a) (hb : h_read h pb = some b) :
    (∀ h' r, (bi_add_h fuel h pa pb = some (h', r) ∨ bi_sub_h fuel h pa pb = some (h', r)) →
        h_read h' pa = some a ∧ h_read h' pb = some b
          ∧ (∀ p, p < h.length → h'[p]? = h[p]?) ∧ h.length ≤ r) ∧
      (13 ≤ fuel → char_ok ⟨a⟩ → char_ok ⟨b⟩ →
        (∃ h' r, bi_add_h fuel h pa pb = some (h', r))
          ∧ (∃ h' r, bi_sub_h fuel h pa pb = some (h', r))) := by
  have e1 := bi_add_h_eq fuel h pa pb a b ha hb
  have e2 := bi_sub_h_eq fuel h pa pb a b ha hb
  refine ⟨?_, ?_⟩
  · intro h' r hr
    have key : ∃ x : heap_t, h' = h ++ x ∧ h.length ≤ r := by
      rcases hr with hr | hr
      · rw [e1] at hr
        cases hq : bi_add fuel ⟨a⟩ ⟨b⟩ with
        | none => rw [hq] at hr; simp at hr
        | some q =>
          rw [hq] at hr
          simp only [Option.map_some', Option.some.injEq, Prod.mk.injEq] at hr
          exact ⟨_, hr.1.symm, by omega⟩
      · rw [e2] at hr
        cases hq : bi_sub fuel ⟨a⟩ ⟨b⟩ with
        | none => rw [hq] at hr; simp at hr
        | some q =>
          rw [hq] at hr
          simp only [Option.map_some', Option.some.injEq, Prod.mk.injEq] at hr
          exact ⟨_, hr.1.symm, by omega⟩
    obtain ⟨x, rfl, hle⟩ := key
    exact ⟨h_read_append h x pa a ha, h_read_append h x pb b hb,
      fun p hp => List.getElem?_append_left hp, hle⟩
  · intro hf ca cb
    obtain ⟨q1, hq1⟩ := bi_add_returns fuel hf ⟨a⟩ ⟨b⟩ ca cb
    obtain ⟨q2, hq2⟩ := bi_sub_returns fuel hf ⟨a⟩ ⟨b⟩ ca
    refine ⟨⟨h ++ [some q1.data], h.length, ?_⟩, ⟨h ++ [none, some q2.data], h.length + 1, ?_⟩⟩
    · rw [e1, hq1]; rfl
    · rw [e2, hq2]; rfl

theorem operands_unchanged_witness :
    (∀ h' r, (bi_add_h 13 [some [9, 9], some [-1]] 0 1 = some (h', r)
          ∨ bi_sub_h 13 [some [9, 9], some [-1]] 0 1 = some (h', r)) →
        h_read h' 0 = some [9, 9] ∧ h_read h' 1 = some [-1]
          ∧ (∀ p, p < [some [9, 9], some [(-1 : Int)]].length
              → h'[p]? = [some [9, 9], some [(-1 : Int)]][p]?)
          ∧ [some [9, 9], some [(-1 : Int)]].length ≤ r) ∧
      (∃ h' r, bi_add_h 13 [some [9, 9], some [-1]] 0 1 = some (h', r))
        ∧ (∃ h' r, bi_sub_h 13 [some [9, 9], some [-1]] 0 1 = some (h', r)) :=
  ⟨(operands_unchanged 13 [some [9, 9], some [-1]] 0 1 [9, 9] [-1] (by decide) (by decide)).1,
    (operands_unchanged 13 [some [9, 9], some [-1]] 0 1 [9, 9] [-1] (by decide) (by decide)).2
      (by decide) (by decide) (by decide)⟩

/-! ## Literals without digits and the first read of `debug_print` -/

/-- Claim C19: `bi_load` of the empty literal or of a sign-only literal leaves
zero digits, whatever the prior content; `debug_print` first reads the
most-significant digit at index `used - 1`, and it gets past its reads exactly
when the BigInt has at least one digit, which is exactly when that read is in
bounds; on a BigInt of zero digits (as `bi_init` or such a load makes it) the
index is -1, the read is out of bounds and `debug_print` fails. -/
theorem bi_load_empty_print_bounds (b : bigint_t) :
    (bi_load b "".toList).data = [] ∧ (bi_load b "+".toList).data = []
      ∧ (bi_load b "-".toList).data = [] ∧ bi_init.data = []
      ∧ ((debug_print b).isSome ↔ 1 ≤ b.data.length)
      ∧ ((dl_get b.data (dlist_used b.data - 1)).isSome ↔ 1 ≤ b.data.length)
      ∧ (b.data = [] → dlist_used b.data - 1 = -1 ∧ debug_print b = none)
      ∧ debug_print bi_init = none ∧ debug_print (bi_load b "".toList) = none
      ∧ debug_print (bi_load b "+".toList) = none
      ∧ debug_print (bi_load b "-".toList) = none := by
  refine ⟨rfl, rfl, rfl, rfl, ?_, ?_, ?_, rfl, rfl, rfl, rfl⟩
  · cases b with
    | mk l =>
      by_cases h : l = []
      · subst h
        have e : debug_print ⟨[]⟩ = none := rfl
        simp [e]
      · obtain ⟨c, _, hp⟩ := debug_print_nonempty l h
        have hl : 1 ≤ l.length := by
          cases l with
          | nil => exact absurd rfl h
          | cons x t => simp
        simp [hp, hl]
  · by_cases h : b.data = []
    · simp [h, dl_get, dlist_used]
    · rw [dl_get_last _ h]
      rcases List.eq_nil_or_concat b.data with e | ⟨m, c, e⟩
      · exact absurd e h
      · rw [e]; simp
  · intro h
    simp [h, debug_print, dl_get, dlist_used]

end BigInt
